import Mathlib

/-!
Verification of the drizzle-events mutation-orchestration library.

The development shallowly embeds the library's core:

* `Value` models the JavaScript values flowing through `deepMerge`
  (src/base/index.ts): null, undefined, booleans, numbers, strings,
  arrays and plain objects (insertion-ordered association lists).
* `deepMerge` is translated from `deepMerge` in src/base/index.ts.
* The Pg, SQLite and D1 event managers (src/pg/index.ts, the SQLite
  manager source, src/d1/index.ts) are embedded as pure state-passing
  functions over an in-memory table, parameterised by the net effect of
  each hook emission and by the store operations.
* The priority dispatcher of the external event-manager package is
  modelled from the specification (registration lists sorted by
  priority with stable ties).
-/

/-- JavaScript values as manipulated by `deepMerge` and the managers.
Objects are insertion-ordered association lists, mirroring JS property
order; arrays are lists. -/
inductive Value where
  | vnull
  | vundef
  | vbool (b : Bool)
  | vnum (n : Int)
  | vstr (s : String)
  | varr (elems : List Value)
  | vobj (fields : List (String × Value))

mutual

/-- Structural equality on `Value` (JS `===` on primitives, deep value
equality on containers; the model identifies structurally equal
objects). -/
def Value.beq : Value → Value → Bool
  | .vnull, .vnull => true
  | .vundef, .vundef => true
  | .vbool a, .vbool b => a == b
  | .vnum a, .vnum b => a == b
  | .vstr a, .vstr b => a == b
  | .varr a, .varr b => Value.beqList a b
  | .vobj a, .vobj b => Value.beqFields a b
  | _, _ => false

def Value.beqList : List Value → List Value → Bool
  | [], [] => true
  | x :: xs, y :: ys => Value.beq x y && Value.beqList xs ys
  | _, _ => false

def Value.beqFields : List (String × Value) → List (String × Value) → Bool
  | [], [] => true
  | (k, v) :: xs, (l, w) :: ys => k == l && Value.beq v w && Value.beqFields xs ys
  | _, _ => false

end

mutual

theorem Value.beq_iff : ∀ a b : Value, Value.beq a b = true ↔ a = b
  | .vnull, b => by cases b <;> simp [Value.beq]
  | .vundef, b => by cases b <;> simp [Value.beq]
  | .vbool a, b => by cases b <;> simp [Value.beq]
  | .vnum a, b => by cases b <;> simp [Value.beq]
  | .vstr a, b => by cases b <;> simp [Value.beq]
  | .varr xs, b => by
      cases b <;> simp [Value.beq]
      exact Value.beqList_iff xs _
  | .vobj xs, b => by
      cases b <;> simp [Value.beq]
      exact Value.beqFields_iff xs _

theorem Value.beqList_iff : ∀ a b : List Value, Value.beqList a b = true ↔ a = b
  | [], b => by cases b <;> simp [Value.beqList]
  | x :: xs, [] => by simp [Value.beqList]
  | x :: xs, y :: ys => by
      simp [Value.beqList, Value.beq_iff x y, Value.beqList_iff xs ys]

theorem Value.beqFields_iff :
    ∀ a b : List (String × Value), Value.beqFields a b = true ↔ a = b
  | [], b => by cases b <;> simp [Value.beqFields]
  | x :: xs, [] => by simp [Value.beqFields]
  | (k, v) :: xs, (l, w) :: ys => by
      simp [Value.beqFields, Value.beq_iff v w, Value.beqFields_iff xs ys, and_assoc]

end

instance : DecidableEq Value := fun a b =>
  decidable_of_iff (Value.beq a b = true) (Value.beq_iff a b)

/-- `Array.from(new Set(xs))`: first-occurrence de-duplication,
preserving order (JS `Set` keeps the first occurrence of each value). -/
def jsDedup : List Value → List Value
  | [] => []
  | x :: xs => x :: jsDedup (xs.filter (fun y => y ≠ x))
termination_by l => l.length
decreasing_by
  simp only [List.length_cons]
  exact Nat.lt_succ_of_le (List.length_filter_le _ _)

/-- Property access `obj[key]` restricted to present keys (first match;
JS objects have unique keys, so this is exact on representable
objects). -/
def lookupA : List (String × Value) → String → Option Value
  | [], _ => none
  | (l, v) :: rest, k => if l = k then some v else lookupA rest k

/-- Property assignment `obj[key] = v`: replaces the value in place if
the key is present, appends the key otherwise (JS property order). -/
def setKey : List (String × Value) → String → Value → List (String × Value)
  | [], k, v => [(k, v)]
  | (l, w) :: rest, k, v =>
      if l = k then (k, v) :: rest else (l, w) :: setKey rest k v

/-- `ArrayStrategy` from src/base/index.ts. -/
inductive ArrayStrategy where
  | replace
  | concat
  | union
deriving DecidableEq

/-- `EventManagerConfig` from src/base/index.ts. -/
structure EventManagerConfig where
  merge_objects : Bool
  array_strategy : ArrayStrategy
  rollback_on_cancel : Bool
deriving DecidableEq

/-- `DefaultEventManagerConfig` from src/base/index.ts. -/
def DefaultEventManagerConfig : EventManagerConfig :=
  { merge_objects := true
    array_strategy := ArrayStrategy.union
    rollback_on_cancel := true }

/-- `isPlainObject` from src/base/index.ts: true exactly for plain
objects (not arrays, primitives, null or undefined). -/
def isPlainObject : Value → Bool
  | Value.vobj _ => true
  | _ => false

/-- The array-combination step of `deepMerge` (src/base/index.ts lines
80-90), applied when both sides hold arrays. -/
def mergeArrays (s : ArrayStrategy) (av bv : List Value) : List Value :=
  match s with
  | ArrayStrategy.concat => av ++ bv
  | ArrayStrategy.union => jsDedup (av ++ bv)
  | ArrayStrategy.replace => bv

mutual

/-- `deepMerge` from src/base/index.ts: if either side is not a plain
object the incoming value wins; otherwise start from a copy of `a` and
fold `b`'s entries in via `mergeField`. -/
def deepMerge (a b : Value) (s : ArrayStrategy) : Value :=
  match a, b with
  | Value.vobj afs, Value.vobj bfs => Value.vobj (mergeEntries afs afs bfs s)
  | _, _ => b

/-- The `for (const [key, b_value] of Object.entries(b))` loop of
`deepMerge`: `afs` is the untouched left operand (the loop reads
`a[key]`), `out` the accumulator initialised to `{...a}`. -/
def mergeEntries (afs out : List (String × Value)) :
    List (String × Value) → ArrayStrategy → List (String × Value)
  | [], _ => out
  | (k, bv) :: rest, s =>
      mergeEntries afs (setKey out k (mergeField afs s k bv)) rest s
termination_by l => sizeOf l
decreasing_by
  all_goals simp_wf
  all_goals omega

/-- One iteration of the `deepMerge` loop body: decide the merged value
for key `k` with incoming value `bv`, given the left operand `afs`. -/
def mergeField (afs : List (String × Value)) (s : ArrayStrategy) (k : String) :
    Value → Value
  | Value.vobj bf =>
      match lookupA afs k with
      | some (Value.vobj af) => Value.vobj (mergeEntries af af bf s)
      | _ => Value.vobj bf
  | Value.varr bl =>
      match lookupA afs k with
      | some (Value.varr al) => Value.varr (mergeArrays s al bl)
      | _ => Value.varr bl
  | bv => bv
termination_by bv => sizeOf bv
decreasing_by
  all_goals simp_wf

end


/-- `key in obj` as a recursive predicate. -/
def hasKey : List (String × Value) → String → Bool
  | [], _ => false
  | (l, _) :: rest, k => l == k || hasKey rest k

/-- Look a key up inside a `Value` when it is a plain object. -/
def objLookup : Value → String → Option Value
  | Value.vobj fs, k => lookupA fs k
  | _, _ => none

/-- JS truthiness, as tested by `if (!data[key]) continue;` in the
update merge loop (null, undefined, false, 0 and the empty string are
falsy; arrays and objects are truthy). -/
def truthy : Value → Bool
  | Value.vnull => false
  | Value.vundef => false
  | Value.vbool b => b
  | Value.vnum n => decide (n ≠ 0)
  | Value.vstr s => decide (s ≠ "")
  | Value.varr _ => true
  | Value.vobj _ => true

/-- A persisted row: mapping from column name to value. -/
abbrev Row := List (String × Value)

/-- An in-memory table: its rows in insertion order. -/
abbrev Table := List Row

/-- An equality selector (`eq`, `and(...)`): column/value conditions,
all of which must hold. -/
abbrev Selector := List (String × Value)

/-- JS member access `row[key]`: `undefined` when the key is absent. -/
def jsIndex (row : Row) (k : String) : Value :=
  (lookupA row k).getD Value.vundef

/-- A row matches a selector iff every condition's column holds exactly
the condition's value. -/
def matchRow (row : Row) (sel : Selector) : Bool :=
  sel.all (fun c => decide (lookupA row c.1 = some c.2))

/-- `select(...).from(table).where(sel)`: the matching rows in table
order (the managers consume the first result). -/
def selectWhere (t : Table) (sel : Selector) : List Row :=
  t.filter (fun row => matchRow row sel)

/-- `insert(table).values(rows).returning()`: append the rows and
return them. -/
def insertRows (t : Table) (rows : List Row) : Table × List Row :=
  (t ++ rows, rows)

/-- `Object.assign(row, data)`: set each field of `data` on the row, in
`data`'s key order. -/
def assignRow (row : Row) (data : Row) : Row :=
  data.foldl (fun r c => setKey r c.1 c.2) row

/-- `update(table).set(data).where(sel).returning()`: assign `data` on
every matching row, returning the updated rows. -/
def updateWhere (t : Table) (sel : Selector) (data : Row) : Table × List Row :=
  (t.map (fun row => if matchRow row sel then assignRow row data else row),
   (selectWhere t sel).map (fun row => assignRow row data))

/-- `delete(table).where(sel)`: drop every matching row. -/
def deleteWhere (t : Table) (sel : Selector) : Table :=
  t.filter (fun row => !(matchRow row sel))

/-- Fault model for the store calls that the managers wrap in
try/catch: a `false` flag makes the corresponding guarded call throw
instead of running the in-memory semantics. Reads and compensating
rollback writes (which the sources do not guard) keep the concrete
semantics. -/
structure StoreFaults where
  insertOk : Bool
  updateOk : Bool
  deleteOk : Bool
deriving DecidableEq

/-- A store whose guarded calls never throw. -/
def reliableStore : StoreFaults :=
  { insertOk := true, updateOk := true, deleteOk := true }

/-- Result type `Response<T>` from src/base/index.ts. -/
inductive Response (T : Type) where
  | success (data : T)
  | error (message : Option String)
deriving DecidableEq

/-- The net effect of one hook-chain emission on a cancellable event:
the possibly mutated event payload and the final cancellation state
(`some reason` iff some handler cancelled, where `reason` is the
optional string handed to `cancel`). -/
structure Hooks where
  preInsert : Row → Row × Option (Option String)
  postInsert : Row → Option (Option String)
  preUpdate : Row → Row → Row × Option (Option String)
  postUpdate : Row → Row → Option (Option String)
  preDelete : Row → Option (Option String)
  postDelete : Row → Option (Option String)

/-- Schema data used by `_resolvePrimaryKeys`: the declared primary
keys (each a list of column references, as `getTableConfig(...)
.primaryKeys[i].columns`) and the field-name to column-reference
mapping of `getTableColumns`. Column references are identified by
numbers, compared like JS object identity. -/
structure TableSchema where
  primaryKeys : List (List Nat)
  columns : List (String × Nat)

/-- The schema-introspection path of `PgEventManager._resolvePrimaryKeys`
(src/pg/index.ts lines 570-598): flatten the declared primary-key
columns, resolve each to its field name, de-duplicate preserving
declared order. -/
def resolveDeclaredKeys (tbl : TableSchema) : Except String (List String) :=
  let primary_columns := tbl.primaryKeys.flatten
  if primary_columns.isEmpty then
    Except.error "No primary key is defined for this table."
  else
    let keys := primary_columns.foldl
      (fun keys pc =>
        match tbl.columns.find? (fun c => c.2 == pc) with
        | none => keys
        | some c => if c.1 ∈ keys then keys else keys ++ [c.1]) []
    if keys.isEmpty then
      Except.error "Unable to resolve primary key columns for this table."
    else Except.ok keys

/-- `PgEventManager._resolvePrimaryKeys` (src/pg/index.ts lines
562-599). The guard is `if (primary_field)`, a JS truthiness test, so
an explicit empty-string field behaves like an absent one. -/
def resolvePrimaryKeys (tbl : TableSchema) (primary_field : Option String) :
    Except String (List String) :=
  match primary_field with
  | some f => if f = "" then resolveDeclaredKeys tbl else Except.ok [f]
  | none => resolveDeclaredKeys tbl

/-- `PgEventManager._buildWhereFromKeys` (src/pg/index.ts lines
637-644): equality on each key column, AND-combined. -/
def buildWhereFromKeys (keys : List String) (values : Row) : Selector :=
  keys.map (fun k => (k, jsIndex values k))

/-- `PgEventManager._buildWhereFromPrimaryValue` (src/pg/index.ts lines
601-635). For a single key a bare value or a partial row carrying the
key is accepted; a composite key requires a partial row carrying every
key. -/
def buildWhereFromPrimaryValue (keys : List String) (primary_value : Value) :
    Except String Selector :=
  match keys with
  | [k] =>
    let v := match primary_value with
      | Value.vobj fs =>
        match lookupA fs k with
        | some w => w
        | none => primary_value
      | _ => primary_value
    Except.ok [(k, v)]
  | _ =>
    match primary_value with
    | Value.vobj fs =>
      match keys.find? (fun k => !(hasKey fs k)) with
      | some k =>
          Except.error ("Composite primary key requires a value for \"" ++ k ++ "\".")
      | none => Except.ok (buildWhereFromKeys keys fs)
    | _ =>
        Except.error ("Composite primary key requires an object with values for " ++
          String.intercalate ", " (keys.map (fun k => "\"" ++ k ++ "\"")) ++ ".")

/-- The `merge_objects` step of the update flows (src/pg/index.ts lines
344-353): for each column of the old row, when `data` holds a truthy
value at that key, replace it by the deep merge of old value and
incoming value with the given strategy. -/
def mergeUpdateData (strategy : ArrayStrategy) (merge_objects : Bool)
    (old_row data : Row) : Row :=
  if merge_objects then
    old_row.foldl
      (fun d c =>
        match lookupA d c.1 with
        | none => d
        | some dv =>
            if truthy dv then setKey d c.1 (deepMerge c.2 dv strategy) else d)
      data
  else data

/-- The `runInsert` body of `PgEventManager.insert` (src/pg/index.ts
lines 192-242). `Except.error` models a thrown `PgEventRollbackError`
carrying the cancel reason; the store calls guarded by try/catch obey
`fx`. -/
def pgRunInsert (cfg : EventManagerConfig) (hooks : Hooks) (fx : StoreFaults)
    (t : Table) (data : Row) : Except (Option String) (Response Row × Table) :=
  let pre := hooks.preInsert data
  match pre.2 with
  | some reason => Except.ok (Response.error reason, t)
  | none =>
    if fx.insertOk then
      match insertRows t [pre.1] with
      | (t1, results) =>
        match results with
        | [] =>
            Except.ok
              (Response.error (some "An error occurred while inserting the data."), t1)
        | row :: _ =>
          match hooks.postInsert row with
          | some reason =>
              if cfg.rollback_on_cancel then Except.error reason
              else Except.ok (Response.error reason, t1)
          | none => Except.ok (Response.success row, t1)
    else
      Except.ok (Response.error (some "An error occurred while inserting the data."), t)

/-- `PgEventManager.insert` (src/pg/index.ts lines 173-263). With
`rollback_on_cancel` the body runs inside a transaction: a rollback
signal aborts it, restoring the initial table. Without it the body runs
directly; the signal branch is then unreachable, since `runInsert` only
throws the signal under `rollback_on_cancel`. -/
def pgInsert (cfg : EventManagerConfig) (hooks : Hooks) (fx : StoreFaults)
    (t : Table) (data : Row) : Response Row × Table :=
  match pgRunInsert cfg hooks fx t data with
  | Except.ok r => r
  | Except.error reason => (Response.error reason, t)

/-- The `runUpdate` body of `PgEventManager.update` (src/pg/index.ts
lines 312-400): load the old row, emit `pre-update`, merge, write, emit
`post-update`; post-cancellation under `rollback_on_cancel` throws the
rollback signal. -/
def pgRunUpdate (cfg : EventManagerConfig) (hooks : Hooks) (fx : StoreFaults)
    (t : Table) (sel : Selector) (data : Row) :
    Except (Option String) (Response Row × Table) :=
  match selectWhere t sel with
  | [] => Except.ok (Response.error (some "The row does not exist."), t)
  | old_row :: _ =>
    let pre := hooks.preUpdate data old_row
    match pre.2 with
    | some reason => Except.ok (Response.error reason, t)
    | none =>
      let data2 := mergeUpdateData cfg.array_strategy cfg.merge_objects old_row pre.1
      if fx.updateOk then
        match updateWhere t sel data2 with
        | (t1, results) =>
          match results with
          | [] =>
              Except.ok
                (Response.error (some "An error occurred while updating the data."), t1)
          | row :: _ =>
            match hooks.postUpdate row old_row with
            | some reason =>
                if cfg.rollback_on_cancel then Except.error reason
                else Except.ok (Response.error reason, t1)
            | none => Except.ok (Response.success row, t1)
      else
        Except.ok (Response.error (some "An error occurred while updating the data."), t)

/-- `PgEventManager.update` (src/pg/index.ts lines 265-421): resolve
the primary keys, build the selector, then run `runUpdate` (inside a
transaction when `rollback_on_cancel` is set, so that a rollback signal
restores the initial table). -/
def pgUpdate (cfg : EventManagerConfig) (hooks : Hooks) (fx : StoreFaults)
    (tbl : TableSchema) (t : Table) (primary_field : Option String)
    (primary_value : Value) (data : Row) : Response Row × Table :=
  match resolvePrimaryKeys tbl primary_field with
  | Except.error e =>
      (Response.error (some (e ++ " Pass a primary_field explicitly.")), t)
  | Except.ok keys =>
    match buildWhereFromPrimaryValue keys primary_value with
    | Except.error e => (Response.error (some e), t)
    | Except.ok sel =>
      match pgRunUpdate cfg hooks fx t sel data with
      | Except.ok r => r
      | Except.error reason => (Response.error reason, t)

/-- The `runDelete` body of `PgEventManager.delete` (src/pg/index.ts
lines 466-518). A throwing store delete is reported with the
update-operation message (source line 497). -/
def pgRunDelete (cfg : EventManagerConfig) (hooks : Hooks) (fx : StoreFaults)
    (t : Table) (sel : Selector) :
    Except (Option String) (Response Row × Table) :=
  match selectWhere t sel with
  | [] => Except.ok (Response.error (some "The row does not exist."), t)
  | row :: _ =>
    match hooks.preDelete row with
    | some reason => Except.ok (Response.error reason, t)
    | none =>
      if fx.deleteOk then
        let t1 := deleteWhere t sel
        match hooks.postDelete row with
        | some reason =>
            if cfg.rollback_on_cancel then Except.error reason
            else Except.ok (Response.error reason, t1)
        | none => Except.ok (Response.success row, t1)
      else
        Except.ok (Response.error (some "An error occurred while updating the data."), t)

/-- `PgEventManager.delete` (src/pg/index.ts lines 423-539): resolve
keys, build the selector, run `runDelete` (transactionally when
`rollback_on_cancel` is set). -/
def pgDelete (cfg : EventManagerConfig) (hooks : Hooks) (fx : StoreFaults)
    (tbl : TableSchema) (t : Table) (primary_field : Option String)
    (primary_value : Value) : Response Row × Table :=
  match resolvePrimaryKeys tbl primary_field with
  | Except.error e =>
      (Response.error (some (e ++ " Pass a primary_field explicitly.")), t)
  | Except.ok keys =>
    match buildWhereFromPrimaryValue keys primary_value with
    | Except.error e => (Response.error (some e), t)
    | Except.ok sel =>
      match pgRunDelete cfg hooks fx t sel with
      | Except.ok r => r
      | Except.error reason => (Response.error reason, t)

/-- The pre-insert loop shared by `PgEventManager.insert_batch` and
`D1EventManager.insertBatch`: emit `pre-insert` for every payload item
before any store call, replacing each item with the possibly mutated
event data; the first cancellation aborts the loop. -/
def preInsertPhase (hooks : Hooks) : List Row → Except (Option String) (List Row)
  | [] => Except.ok []
  | d :: rest =>
    let pre := hooks.preInsert d
    match pre.2 with
    | some reason => Except.error reason
    | none =>
      match preInsertPhase hooks rest with
      | Except.ok ds => Except.ok (pre.1 :: ds)
      | Except.error reason => Except.error reason

/-- The post-insert loop of the batch inserts: emit `post-insert` per
persisted row, stopping at the first cancellation and returning its
reason. -/
def postInsertPhase (hooks : Hooks) : List Row → Option (Option String)
  | [] => none
  | row :: rest =>
    match hooks.postInsert row with
    | some reason => some reason
    | none => postInsertPhase hooks rest

/-- The `runInsertBatch` body of `PgEventManager.insert_batch`
(src/pg/index.ts lines 933-1007): with `rollbackOnError` every error
outcome throws the rollback signal instead of returning. -/
def pgRunInsertBatch (hooks : Hooks) (fx : StoreFaults) (rollbackOnError : Bool)
    (t : Table) (data : List Row) :
    Except (Option String) (Response (List Row) × Table) :=
  match preInsertPhase hooks data with
  | Except.error reason =>
      if rollbackOnError then Except.error reason
      else Except.ok (Response.error reason, t)
  | Except.ok data1 =>
    if fx.insertOk then
      match insertRows t data1 with
      | (t1, results) =>
        if results.isEmpty then
          let m : Option String := some "An error occurred while inserting the data."
          if rollbackOnError then Except.error m else Except.ok (Response.error m, t1)
        else
          match postInsertPhase hooks results with
          | some reason =>
              if rollbackOnError then Except.error reason
              else Except.ok (Response.error reason, t1)
          | none => Except.ok (Response.success results, t1)
    else
      let m : Option String := some "An error occurred while inserting the data."
      if rollbackOnError then Except.error m else Except.ok (Response.error m, t)

/-- `PgEventManager.insert_batch` (src/pg/index.ts lines 914-1028):
transactional with `rollbackOnError := true` when `rollback_on_cancel`
is set, plain otherwise. -/
def pgInsertBatch (cfg : EventManagerConfig) (hooks : Hooks) (fx : StoreFaults)
    (t : Table) (data : List Row) : Response (List Row) × Table :=
  if cfg.rollback_on_cancel then
    match pgRunInsertBatch hooks fx true t data with
    | Except.ok r => r
    | Except.error reason => (Response.error reason, t)
  else
    match pgRunInsertBatch hooks fx false t data with
    | Except.ok r => r
    | Except.error reason => (Response.error reason, t)

/-- The `runUpdateBatch` body of `PgEventManager.update_batch`
(src/pg/index.ts lines 1242-1377): per-item select, `pre-update`,
merge, write, `post-update`, accumulating the updated rows; with
`rollbackOnError` every error outcome throws the rollback signal. -/
def pgRunUpdateBatch (cfg : EventManagerConfig) (hooks : Hooks) (fx : StoreFaults)
    (keys : List String) (rollbackOnError : Bool) :
    Table → List (Value × Row) → List Row →
      Except (Option String) (Response (List Row) × Table)
  | t, [], acc => Except.ok (Response.success acc, t)
  | t, (pv, data) :: rest, acc =>
    match buildWhereFromPrimaryValue keys pv with
    | Except.error e =>
        if rollbackOnError then Except.error (some e)
        else Except.ok (Response.error (some e), t)
    | Except.ok sel =>
      match selectWhere t sel with
      | [] =>
          let m : Option String := some "The row does not exist."
          if rollbackOnError then Except.error m
          else Except.ok (Response.error m, t)
      | old_row :: _ =>
        let pre := hooks.preUpdate data old_row
        match pre.2 with
        | some reason =>
            if rollbackOnError then Except.error reason
            else Except.ok (Response.error reason, t)
        | none =>
          let data2 := mergeUpdateData cfg.array_strategy cfg.merge_objects old_row pre.1
          if fx.updateOk then
            match updateWhere t sel data2 with
            | (t1, results) =>
              match results with
              | [] =>
                  let m : Option String := some "An error occurred while updating the data."
                  if rollbackOnError then Except.error m
                  else Except.ok (Response.error m, t1)
              | row :: _ =>
                match hooks.postUpdate row old_row with
                | some reason =>
                    if rollbackOnError then Except.error reason
                    else Except.ok (Response.error reason, t1)
                | none =>
                    pgRunUpdateBatch cfg hooks fx keys rollbackOnError t1 rest (acc ++ [row])
          else
            let m : Option String := some "An error occurred while updating the data."
            if rollbackOnError then Except.error m
            else Except.ok (Response.error m, t)

/-- `PgEventManager.update_batch` (src/pg/index.ts lines 1188-1398):
resolve the primary keys once, then run the batch body (transactionally
with `rollbackOnError := true` when `rollback_on_cancel` is set). -/
def pgUpdateBatch (cfg : EventManagerConfig) (hooks : Hooks) (fx : StoreFaults)
    (tbl : TableSchema) (t : Table) (primary_field : Option String)
    (updates : List (Value × Row)) : Response (List Row) × Table :=
  match resolvePrimaryKeys tbl primary_field with
  | Except.error e =>
      (Response.error (some (e ++ " Pass a primary_field explicitly.")), t)
  | Except.ok keys =>
    if cfg.rollback_on_cancel then
      match pgRunUpdateBatch cfg hooks fx keys true t updates [] with
      | Except.ok r => r
      | Except.error reason => (Response.error reason, t)
    else
      match pgRunUpdateBatch cfg hooks fx keys false t updates [] with
      | Except.ok r => r
      | Except.error reason => (Response.error reason, t)

/-- The `runDeleteBatch` body of `PgEventManager.delete_batch`
(src/pg/index.ts lines 1558-1650). -/
def pgRunDeleteBatch (cfg : EventManagerConfig) (hooks : Hooks) (fx : StoreFaults)
    (keys : List String) (rollbackOnError : Bool) :
    Table → List Value → List Row →
      Except (Option String) (Response (List Row) × Table)
  | t, [], acc => Except.ok (Response.success acc, t)
  | t, pv :: rest, acc =>
    match buildWhereFromPrimaryValue keys pv with
    | Except.error e =>
        if rollbackOnError then Except.error (some e)
        else Except.ok (Response.error (some e), t)
    | Except.ok sel =>
      match selectWhere t sel with
      | [] =>
          let m : Option String := some "The row does not exist."
          if rollbackOnError then Except.error m
          else Except.ok (Response.error m, t)
      | row :: _ =>
        match hooks.preDelete row with
        | some reason =>
            if rollbackOnError then Except.error reason
            else Except.ok (Response.error reason, t)
        | none =>
          if fx.deleteOk then
            let t1 := deleteWhere t sel
            match hooks.postDelete row with
            | some reason =>
                if rollbackOnError then Except.error reason
                else Except.ok (Response.error reason, t1)
            | none => pgRunDeleteBatch cfg hooks fx keys rollbackOnError t1 rest (acc ++ [row])
          else
            let m : Option String := some "An error occurred while updating the data."
            if rollbackOnError then Except.error m
            else Except.ok (Response.error m, t)

/-- `PgEventManager.delete_batch` (src/pg/index.ts lines 1518-1671). -/
def pgDeleteBatch (cfg : EventManagerConfig) (hooks : Hooks) (fx : StoreFaults)
    (tbl : TableSchema) (t : Table) (primary_field : Option String)
    (primary_values : List Value) : Response (List Row) × Table :=
  match resolvePrimaryKeys tbl primary_field with
  | Except.error e =>
      (Response.error (some (e ++ " Pass a primary_field explicitly.")), t)
  | Except.ok keys =>
    if cfg.rollback_on_cancel then
      match pgRunDeleteBatch cfg hooks fx keys true t primary_values [] with
      | Except.ok r => r
      | Except.error reason => (Response.error reason, t)
    else
      match pgRunDeleteBatch cfg hooks fx keys false t primary_values [] with
      | Except.ok r => r
      | Except.error reason => (Response.error reason, t)

/-- `SQLiteEventManager.insert` (SQLite manager source lines 157-219):
no transaction; `post-insert` cancellation under `rollback_on_cancel`
issues a compensating delete keyed on `primary_field`. -/
def sqliteInsert (cfg : EventManagerConfig) (hooks : Hooks) (fx : StoreFaults)
    (t : Table) (primary_field : String) (data : Row) : Response Row × Table :=
  let pre := hooks.preInsert data
  match pre.2 with
  | some reason => (Response.error reason, t)
  | none =>
    if fx.insertOk then
      match insertRows t [pre.1] with
      | (t1, results) =>
        match results with
        | [] => (Response.error (some "An error occurred while inserting the data."), t1)
        | row :: _ =>
          match hooks.postInsert row with
          | some reason =>
              if cfg.rollback_on_cancel then
                (Response.error reason,
                  deleteWhere t1 [(primary_field, jsIndex row primary_field)])
              else (Response.error reason, t1)
          | none => (Response.success row, t1)
    else (Response.error (some "An error occurred while inserting the data."), t)

/-- `SQLiteEventManager.update` (SQLite manager source lines 221-319).
The per-key merge calls `deepMerge(old_row[key], data[key])` without
the strategy argument (line 266), so the default `union` strategy is
always used; `post-update` cancellation under `rollback_on_cancel`
issues a compensating `set(old_row)` under the same selector. -/
def sqliteUpdate (cfg : EventManagerConfig) (hooks : Hooks) (fx : StoreFaults)
    (t : Table) (primary_field : String) (primary_value : Value) (data : Row) :
    Response Row × Table :=
  let sel : Selector := [(primary_field, primary_value)]
  match selectWhere t sel with
  | [] => (Response.error (some "The row does not exist."), t)
  | old_row :: _ =>
    let pre := hooks.preUpdate data old_row
    match pre.2 with
    | some reason => (Response.error reason, t)
    | none =>
      let data2 := mergeUpdateData ArrayStrategy.union cfg.merge_objects old_row pre.1
      if fx.updateOk then
        match updateWhere t sel data2 with
        | (t1, results) =>
          match results with
          | [] => (Response.error (some "An error occurred while updating the data."), t1)
          | row :: _ =>
            match hooks.postUpdate row old_row with
            | some reason =>
                if cfg.rollback_on_cancel then
                  (Response.error reason, (updateWhere t1 sel old_row).1)
                else (Response.error reason, t1)
            | none => (Response.success row, t1)
      else (Response.error (some "An error occurred while updating the data."), t)

/-- `SQLiteEventManager.delete` (SQLite manager source lines 321-382).
A throwing store delete is reported with the update-operation message
(source line 357); `post-delete` cancellation under
`rollback_on_cancel` re-inserts the captured row. -/
def sqliteDelete (cfg : EventManagerConfig) (hooks : Hooks) (fx : StoreFaults)
    (t : Table) (primary_field : String) (primary_value : Value) :
    Response Row × Table :=
  let sel : Selector := [(primary_field, primary_value)]
  match selectWhere t sel with
  | [] => (Response.error (some "The row does not exist."), t)
  | row :: _ =>
    match hooks.preDelete row with
    | some reason => (Response.error reason, t)
    | none =>
      if fx.deleteOk then
        let t1 := deleteWhere t sel
        match hooks.postDelete row with
        | some reason =>
            if cfg.rollback_on_cancel then
              (Response.error reason, (insertRows t1 [row]).1)
            else (Response.error reason, t1)
        | none => (Response.success row, t1)
      else (Response.error (some "An error occurred while updating the data."), t)

/-- The compensating-delete loop of `D1EventManager.insertBatch`
(src/d1/index.ts lines 92-97): delete every result row by its key
columns. -/
def d1CompensateDeletes (keys : List String) : Table → List Row → Table
  | t, [] => t
  | t, r :: rest => d1CompensateDeletes keys (deleteWhere t (buildWhereFromKeys keys r)) rest

/-- The part of `D1EventManager.insertBatch` after the primary-key
check: pre-insert loop, one batched store call, post-insert loop with
compensating deletes on cancellation when the keys are available. -/
def d1InsertBatchBody (cfg : EventManagerConfig) (hooks : Hooks) (fx : StoreFaults)
    (keys : Option (List String)) (t : Table) (data : List Row) :
    Response (List Row) × Table :=
  match preInsertPhase hooks data with
  | Except.error reason => (Response.error reason, t)
  | Except.ok data1 =>
    if fx.insertOk then
      match insertRows t data1 with
      | (t1, results) =>
        if results.isEmpty then
          (Response.error (some "An error occurred while inserting the data."), t1)
        else
          match postInsertPhase hooks results with
          | some reason =>
            match keys with
            | some ks =>
                if cfg.rollback_on_cancel then
                  (Response.error reason, d1CompensateDeletes ks t1 results)
                else (Response.error reason, t1)
            | none => (Response.error reason, t1)
          | none => (Response.success results, t1)
    else (Response.error (some "An error occurred while inserting the data."), t)

/-- `D1EventManager.insertBatch` (src/d1/index.ts lines 16-112). The
inherited `_resolvePrimaryKeys` and `_buildWhereFromKeys` live in the
current SQLite manager, whose source is not provided; they are
modelled from the spec (§4.3), matching the identically named Pg
implementations in src/pg/index.ts. -/
def d1InsertBatch (cfg : EventManagerConfig) (hooks : Hooks) (fx : StoreFaults)
    (tbl : TableSchema) (t : Table) (primary_field : Option String)
    (data : List Row) : Response (List Row) × Table :=
  let primary_info := resolvePrimaryKeys tbl primary_field
  match primary_info with
  | Except.error e =>
    if cfg.rollback_on_cancel then
      (Response.error (some (e ++ " Pass a primary_field or disable rollback_on_cancel.")), t)
    else d1InsertBatchBody cfg hooks fx none t data
  | Except.ok keys => d1InsertBatchBody cfg hooks fx (some keys) t data

/-- Modelled from the spec: event priorities of the external
event-manager package are a small ordered enumeration; the repository
test suite documents the numeric values HIGHEST(1) < HIGH(2) <
NORMAL(3) < LOW(4). -/
inductive EventPriority where
  | highest
  | high
  | normal
  | low
deriving DecidableEq

/-- The numeric value of a priority; lower runs earlier. -/
def EventPriority.toNat : EventPriority → Nat
  | EventPriority.highest => 1
  | EventPriority.high => 2
  | EventPriority.normal => 3
  | EventPriority.low => 4

/-- Modelled from the spec: one handler record of the dispatcher
registry (spec §4.2 and §9): priority, registration sequence number and
an opaque handler tag. -/
structure Registration where
  priority : EventPriority
  seq : Nat
  handler : Nat
deriving DecidableEq

/-- Modelled from the spec: `register(routingKey, handler, priority)`
appends a handler record with the next sequence number to the routing
key's list. -/
def registerHandler (regs : List Registration) (p : EventPriority) (h : Nat) :
    List Registration :=
  regs ++ [{ priority := p, seq := regs.length, handler := h }]

/-- Dispatch order: lexicographic on (numeric priority, registration
sequence). -/
def regLE (a b : Registration) : Bool :=
  decide (a.priority.toNat < b.priority.toNat) ||
    (decide (a.priority.toNat = b.priority.toNat) && decide (a.seq ≤ b.seq))

/-- Insert a record into a dispatch-ordered list, keeping the order. -/
def insertReg (a : Registration) : List Registration → List Registration
  | [] => [a]
  | b :: rest => if regLE a b then a :: b :: rest else b :: insertReg a rest

/-- Sort a registration list into dispatch order. -/
def sortRegs : List Registration → List Registration
  | [] => []
  | a :: rest => insertReg a (sortRegs rest)

/-- Modelled from the spec: `emit` invokes the routing key's handlers
in ascending (priority, registration sequence) order; `emitOrder`
returns the handler tags in invocation order. -/
def emitOrder (regs : List Registration) : List Nat :=
  (sortRegs regs).map Registration.handler

/-- `getEventKey` (src/pg/index.ts lines 646-648): the routing key is
the table's unique name joined with the event kind. -/
def getEventKey (tableName : String) (kind : String) : String :=
  tableName ++ ":" ++ kind

mutual

/-- Sufficient condition for `deepMerge` to be stable under repeated
application of the same right-hand side: every object reachable through
object values of `b` has pairwise distinct keys (always true of real JS
objects) and, when the strategy is `union`, every array stored at an
object key of `b` has no duplicate elements. -/
def remergeSafe (s : ArrayStrategy) : Value → Bool
  | Value.varr l => decide (s ≠ ArrayStrategy.union) || decide l.Nodup
  | Value.vobj fs => decide ((fs.map Prod.fst).Nodup) && remergeSafeFields s fs
  | _ => true

def remergeSafeFields (s : ArrayStrategy) : List (String × Value) → Bool
  | [] => true
  | (_, v) :: rest => remergeSafe s v && remergeSafeFields s rest

end

/-- The field names the declared primary-key columns resolve to, in
declared order, duplicates included (the spec's "all participating
columns ... order as declared" before de-duplication). -/
def resolvedNames (tbl : TableSchema) : List String :=
  tbl.primaryKeys.flatten.filterMap
    (fun pc => (tbl.columns.find? (fun c => c.2 == pc)).map Prod.fst)

/-- First-occurrence de-duplication of a name list (the spec's
"de-duplicated, order as declared"). -/
def dedupNames : List String → List String
  | [] => []
  | k :: rest => k :: dedupNames (rest.filter (fun l => l ≠ k))
termination_by l => l.length
decreasing_by
  simp only [List.length_cons]
  exact Nat.lt_succ_of_le (List.length_filter_le _ _)

/-- The hook effect of a routing key with no registered handlers:
`emit` is a no-op, the event comes back unmutated and uncancelled
(spec: emit on a routing key with no handlers returns the event
unchanged). -/
def passiveHooks : Hooks :=
  { preInsert := fun d => (d, none)
    postInsert := fun _ => none
    preUpdate := fun d _ => (d, none)
    postUpdate := fun _ _ => none
    preDelete := fun _ => none
    postDelete := fun _ => none }

instance {e a : Type} [DecidableEq e] [DecidableEq a] : DecidableEq (Except e a)
  | Except.ok x, Except.ok y =>
      if h : x = y then isTrue (by rw [h])
      else isFalse (by intro hh; injection hh; contradiction)
  | Except.ok _, Except.error _ => isFalse (by intro hh; cases hh)
  | Except.error _, Except.ok _ => isFalse (by intro hh; cases hh)
  | Except.error d, Except.error f =>
      if h : d = f then isTrue (by rw [h])
      else isFalse (by intro hh; injection hh; contradiction)

theorem hasKey_eq_isSome (fs : List (String × Value)) (k : String) :
    hasKey fs k = (lookupA fs k).isSome := by
  induction fs with
  | nil => rfl
  | cons p rest ih =>
    obtain ⟨l, w⟩ := p
    by_cases h : l = k
    · simp [hasKey, lookupA, h]
    · simp [hasKey, lookupA, h, ih]

theorem hasKey_iff_exists (fs : List (String × Value)) (k : String) :
    hasKey fs k = true ↔ ∃ v, (k, v) ∈ fs := by
  induction fs with
  | nil => simp [hasKey]
  | cons p rest ih =>
    obtain ⟨l, w⟩ := p
    by_cases h : l = k
    · subst h
      constructor
      · intro _
        exact ⟨w, List.mem_cons_self _ _⟩
      · intro _
        simp [hasKey]
    · have h' : ¬ k = l := fun hh => h hh.symm
      simp [hasKey, h, h', ih, Prod.ext_iff]

theorem lookupA_setKey_self (out : List (String × Value)) (k : String) (v : Value) :
    lookupA (setKey out k v) k = some v := by
  induction out with
  | nil => simp [setKey, lookupA]
  | cons p rest ih =>
    obtain ⟨l, w⟩ := p
    by_cases h : l = k
    · simp [setKey, h, lookupA]
    · simp [setKey, h, lookupA, ih]

theorem lookupA_setKey_ne (out : List (String × Value)) (k l : String) (v : Value)
    (h : ¬ l = k) : lookupA (setKey out k v) l = lookupA out l := by
  have h' : ¬ k = l := fun hh => h hh.symm
  induction out with
  | nil => simp [setKey, lookupA, h']
  | cons p rest ih =>
    obtain ⟨l', w⟩ := p
    by_cases h1 : l' = k
    · subst h1
      simp [setKey, lookupA, h']
    · by_cases h2 : l' = l
      · simp [setKey, h1, lookupA, h2, h]
      · simp [setKey, h1, lookupA, h2, ih]

theorem hasKey_setKey (out : List (String × Value)) (k l : String) (v : Value) :
    hasKey (setKey out k v) l = (l == k || hasKey out l) := by
  by_cases h : l = k
  · subst h
    simp [hasKey_eq_isSome, lookupA_setKey_self]
  · simp [hasKey_eq_isSome, lookupA_setKey_ne _ _ _ _ h, h]

theorem setKey_of_lookupA_eq (out : List (String × Value)) (k : String) (v : Value)
    (h : lookupA out k = some v) : setKey out k v = out := by
  induction out with
  | nil => simp [lookupA] at h
  | cons p rest ih =>
    obtain ⟨l, w⟩ := p
    by_cases h1 : l = k
    · subst h1
      rw [lookupA, if_pos rfl] at h
      injection h with h
      subst h
      simp [setKey]
    · rw [lookupA, if_neg h1] at h
      simp [setKey, h1, ih h]

theorem lookupA_mergeEntries_of_not_hasKey (afs : List (String × Value))
    (s : ArrayStrategy) (k : String) :
    ∀ (bfs out : List (String × Value)), hasKey bfs k = false →
      lookupA (mergeEntries afs out bfs s) k = lookupA out k := by
  intro bfs
  induction bfs with
  | nil => intro out _; simp [mergeEntries]
  | cons p rest ih =>
    intro out h
    obtain ⟨l, bv⟩ := p
    have h1 : ¬ l = k := by
      intro hh
      simp [hasKey, hh] at h
    have h2 : hasKey rest k = false := by
      simp [hasKey] at h
      exact h.2
    have hq : ¬ k = l := fun hh => h1 hh.symm
    simp only [mergeEntries]
    rw [ih _ h2, lookupA_setKey_ne _ _ _ _ hq]

theorem hasKey_mergeEntries (afs : List (String × Value)) (s : ArrayStrategy)
    (k : String) :
    ∀ (bfs out : List (String × Value)),
      hasKey (mergeEntries afs out bfs s) k = (hasKey out k || hasKey bfs k) := by
  intro bfs
  induction bfs with
  | nil => intro out; simp [mergeEntries, hasKey]
  | cons p rest ih =>
    intro out
    obtain ⟨l, bv⟩ := p
    simp only [mergeEntries, ih, hasKey_setKey]
    by_cases h : k = l
    · subst h
      simp [hasKey]
    · have h' : ¬ l = k := fun hh => h hh.symm
      have e1 : (k == l) = false := beq_eq_false_iff_ne.mpr h
      have e2 : (l == k) = false := beq_eq_false_iff_ne.mpr h'
      simp [hasKey, e1, e2]

theorem lookupA_mergeEntries_of_mem (afs : List (String × Value)) (s : ArrayStrategy) :
    ∀ (bfs : List (String × Value)), (bfs.map Prod.fst).Nodup →
      ∀ (k : String) (bv : Value), lookupA bfs k = some bv →
        ∀ out, lookupA (mergeEntries afs out bfs s) k =
          some (mergeField afs s k bv) := by
  intro bfs
  induction bfs with
  | nil => intro _ k bv h; simp [lookupA] at h
  | cons p rest ih =>
    intro hnd k bv h out
    obtain ⟨l, w⟩ := p
    rw [List.map_cons, List.nodup_cons] at hnd
    obtain ⟨hl, hrest⟩ := hnd
    by_cases hlk : l = k
    · subst hlk
      rw [lookupA, if_pos rfl] at h
      injection h with h
      subst h
      have hk : hasKey rest l = false := by
        cases hh : hasKey rest l
        · rfl
        · obtain ⟨v, hv⟩ := (hasKey_iff_exists rest l).mp hh
          exact absurd (List.mem_map_of_mem Prod.fst hv) hl
      simp only [mergeEntries]
      rw [lookupA_mergeEntries_of_not_hasKey afs s l rest _ hk]
      exact lookupA_setKey_self _ _ _
    · rw [lookupA, if_neg hlk] at h
      simp only [mergeEntries]
      exact ih hrest k bv h _

theorem mergeField_of_lookupA_none (afs : List (String × Value)) (s : ArrayStrategy)
    (k : String) (bv : Value) (h : lookupA afs k = none) :
    mergeField afs s k bv = bv := by
  cases bv <;> simp [mergeField, h]

theorem mem_jsDedup : ∀ (l : List Value) (x : Value), x ∈ jsDedup l ↔ x ∈ l
  | [], x => by simp [jsDedup]
  | y :: ys, x => by
      rw [jsDedup, List.mem_cons, List.mem_cons,
        mem_jsDedup (ys.filter (fun z => z ≠ y)) x]
      by_cases h : x = y
      · subst h
        simp
      · simp [h, List.mem_filter]
termination_by l => l.length
decreasing_by
  simp only [List.length_cons]
  exact Nat.lt_succ_of_le (List.length_filter_le _ _)

theorem nodup_jsDedup : ∀ l : List Value, (jsDedup l).Nodup
  | [] => by simp [jsDedup]
  | y :: ys => by
      rw [jsDedup]
      refine List.nodup_cons.mpr ⟨?_, nodup_jsDedup _⟩
      intro hmem
      have hf := (mem_jsDedup _ _).mp hmem
      simp [List.mem_filter] at hf
termination_by l => l.length
decreasing_by
  simp only [List.length_cons]
  exact Nat.lt_succ_of_le (List.length_filter_le _ _)

theorem jsDedup_eq_self (l : List Value) (h : l.Nodup) : jsDedup l = l := by
  induction l with
  | nil => simp [jsDedup]
  | cons y ys ih =>
    rw [List.nodup_cons] at h
    rw [jsDedup]
    have hf : ys.filter (fun z => z ≠ y) = ys := by
      apply List.filter_eq_self.mpr
      intro a ha
      simp
      intro hay
      subst hay
      exact h.1 ha
    rw [hf, ih h.2]

theorem jsDedup_append_of_subset : ∀ (l b : List Value), (∀ x ∈ b, x ∈ l) →
    jsDedup (l ++ b) = jsDedup l
  | [], b, h => by
      have hb : b = [] := by
        cases b with
        | nil => rfl
        | cons x xs => exact absurd (h x (List.mem_cons_self _ _)) (by simp)
      simp [hb]
  | y :: ys, b, h => by
      rw [List.cons_append, jsDedup, jsDedup, List.filter_append]
      rw [jsDedup_append_of_subset (ys.filter (fun z => z ≠ y))
        (b.filter (fun z => z ≠ y)) ?_]
      intro x hx
      rw [List.mem_filter] at hx ⊢
      refine ⟨?_, hx.2⟩
      have hxy : ¬ x = y := by simpa using hx.2
      have := h x hx.1
      simp [hxy] at this
      exact this
termination_by l _ => l.length
decreasing_by
  simp only [List.length_cons]
  exact Nat.lt_succ_of_le (List.length_filter_le _ _)

theorem jsDedup_append_decomp : ∀ (al bl : List Value),
    jsDedup (al ++ bl) =
      jsDedup al ++ jsDedup (bl.filter (fun x => decide (¬ x ∈ al)))
  | [], bl => by simp [jsDedup]
  | y :: ys, bl => by
      rw [List.cons_append, jsDedup, List.filter_append,
        jsDedup_append_decomp (ys.filter (fun z => z ≠ y)) (bl.filter (fun z => z ≠ y)),
        jsDedup, List.cons_append]
      congr 2
      rw [List.filter_filter]
      congr 1
      apply List.filter_congr
      intro a _
      by_cases hay : a = y
      · subst hay
        simp
      · simp [hay, List.mem_filter]
termination_by al _ => al.length
decreasing_by
  simp only [List.length_cons]
  exact Nat.lt_succ_of_le (List.length_filter_le _ _)

theorem isPlainObject_iff (v : Value) :
    isPlainObject v = true ↔ ∃ fs, v = Value.vobj fs := by
  cases v <;> simp [isPlainObject]

theorem lookupA_of_mem_nodup (bfs : List (String × Value))
    (hnd : (bfs.map Prod.fst).Nodup) (k : String) (bv : Value)
    (hmem : (k, bv) ∈ bfs) : lookupA bfs k = some bv := by
  induction bfs with
  | nil => cases hmem
  | cons p rest ih =>
    obtain ⟨l, w⟩ := p
    rw [List.map_cons, List.nodup_cons] at hnd
    rcases List.mem_cons.mp hmem with h | h
    · injection h with h1 h2
      subst h1
      subst h2
      rw [lookupA, if_pos rfl]
    · have hlk : ¬ l = k := by
        intro hh
        subst hh
        exact hnd.1 (List.mem_map.mpr ⟨(l, bv), h, rfl⟩)
      rw [lookupA, if_neg hlk]
      exact ih hnd.2 h

theorem remergeSafe_of_mem (s : ArrayStrategy) (bfs : List (String × Value))
    (hsafe : remergeSafeFields s bfs = true) (p : String × Value) (hp : p ∈ bfs) :
    remergeSafe s p.2 = true := by
  induction bfs with
  | nil => cases hp
  | cons q rest ih =>
    obtain ⟨l, w⟩ := q
    rw [remergeSafeFields, Bool.and_eq_true] at hsafe
    rcases List.mem_cons.mp hp with h | h
    · subst h
      exact hsafe.1
    · exact ih hsafe.2 h

theorem sizeOf_val_lt_of_mem (bfs : List (String × Value)) (p : String × Value)
    (hp : p ∈ bfs) : sizeOf p.2 < sizeOf (Value.vobj bfs) := by
  have h1 := List.sizeOf_lt_of_mem hp
  obtain ⟨k, v⟩ := p
  simp only [Prod.mk.sizeOf_spec, Value.vobj.sizeOf_spec] at h1 ⊢
  omega

theorem mergeEntries_id (afs : List (String × Value)) (s : ArrayStrategy) :
    ∀ (bfs out : List (String × Value)),
      (∀ p ∈ bfs, lookupA out p.1 = some (mergeField afs s p.1 p.2)) →
      mergeEntries afs out bfs s = out := by
  intro bfs
  induction bfs with
  | nil => intro out _; simp [mergeEntries]
  | cons p rest ih =>
    intro out h
    obtain ⟨k, bv⟩ := p
    have h0 := h (k, bv) (List.mem_cons_self _ _)
    simp only [mergeEntries]
    rw [setKey_of_lookupA_eq out k _ h0]
    exact ih out (fun q hq => h q (List.mem_cons_of_mem _ hq))

theorem deepMerge_remerge_aux (s : ArrayStrategy)
    (hs : s = ArrayStrategy.replace ∨ s = ArrayStrategy.union) :
    ∀ (n : Nat) (b : Value), sizeOf b < n → remergeSafe s b = true →
      ∀ a, deepMerge (deepMerge a b s) b s = deepMerge a b s := by
  intro n
  induction n with
  | zero => intro b hb _ _; omega
  | succ n ih =>
    intro b hb hsafe a
    cases b with
    | vnull => cases a <;> simp [deepMerge]
    | vundef => cases a <;> simp [deepMerge]
    | vbool x => cases a <;> simp [deepMerge]
    | vnum x => cases a <;> simp [deepMerge]
    | vstr x => cases a <;> simp [deepMerge]
    | varr x => cases a <;> simp [deepMerge]
    | vobj bfs =>
      rw [remergeSafe, Bool.and_eq_true] at hsafe
      have hnd : (bfs.map Prod.fst).Nodup := of_decide_eq_true hsafe.1
      have hfields := hsafe.2
      have hcore : ∀ p ∈ bfs, ∀ (afs X : List (String × Value)),
          lookupA X p.1 = some (mergeField afs s p.1 p.2) →
          mergeField X s p.1 p.2 = mergeField afs s p.1 p.2 := by
        intro p hp afs X hlx
        obtain ⟨k, bv⟩ := p
        have hbsafe : remergeSafe s bv = true := remergeSafe_of_mem s bfs hfields _ hp
        have hsz : sizeOf bv < n := by
          have hlt := sizeOf_val_lt_of_mem bfs (k, bv) hp
          simp only [Value.vobj.sizeOf_spec] at hb hlt
          omega
        cases bv with
        | vnull => simp only [mergeField]
        | vundef => simp only [mergeField]
        | vbool x => simp only [mergeField]
        | vnum x => simp only [mergeField]
        | vstr x => simp only [mergeField]
        | vobj bf =>
          have his : ∃ aSub, mergeField afs s k (Value.vobj bf) =
              deepMerge aSub (Value.vobj bf) s ∧
              isPlainObject (deepMerge aSub (Value.vobj bf) s) = true := by
            cases hla : lookupA afs k with
            | none =>
              refine ⟨Value.vnull, ?_, by simp [deepMerge, isPlainObject]⟩
              simp only [mergeField, hla]
              simp [deepMerge]
            | some av =>
              by_cases hshape : ∃ af, av = Value.vobj af
              · obtain ⟨af, rfl⟩ := hshape
                refine ⟨Value.vobj af, ?_, by simp [deepMerge, isPlainObject]⟩
                simp only [mergeField, hla, deepMerge]
              · refine ⟨Value.vnull, ?_, by simp [deepMerge, isPlainObject]⟩
                have hred : mergeField afs s k (Value.vobj bf) = Value.vobj bf := by
                  cases av with
                  | vobj af => exact absurd ⟨af, rfl⟩ hshape
                  | vnull => simp only [mergeField, hla]
                  | vundef => simp only [mergeField, hla]
                  | vbool x => simp only [mergeField, hla]
                  | vnum x => simp only [mergeField, hla]
                  | vstr x => simp only [mergeField, hla]
                  | varr x => simp only [mergeField, hla]
                rw [hred]
                simp [deepMerge]
          obtain ⟨aSub, hv1, hobj⟩ := his
          obtain ⟨v1f, hv1f⟩ := (isPlainObject_iff _).mp hobj
          rw [hv1, hv1f] at hlx
          have hLHS : mergeField X s k (Value.vobj bf) =
              deepMerge (Value.vobj v1f) (Value.vobj bf) s := by
            simp only [mergeField, hlx, deepMerge]
          rw [hLHS, hv1, ← hv1f]
          exact ih (Value.vobj bf) hsz hbsafe aSub
        | varr bl =>
          rcases hs with hrep | huni
          · subst hrep
            have hv1 : mergeField afs ArrayStrategy.replace k (Value.varr bl) =
                Value.varr bl := by
              cases hla : lookupA afs k with
              | none => simp only [mergeField, hla]
              | some av => cases av <;> simp [mergeField, hla, mergeArrays]
            rw [hv1] at hlx ⊢
            simp only [mergeField, hlx, mergeArrays]
          · subst huni
            have hbl : bl.Nodup := by
              rw [remergeSafe] at hbsafe
              simpa using hbsafe
            have hkey : ∀ l1 : List Value, (∀ x ∈ bl, x ∈ l1) → l1.Nodup →
                mergeArrays ArrayStrategy.union l1 bl = l1 := by
              intro l1 hsub hnd1
              simp only [mergeArrays]
              rw [jsDedup_append_of_subset l1 bl hsub]
              exact jsDedup_eq_self l1 hnd1
            cases hla : lookupA afs k with
            | none =>
              have hv1 : mergeField afs ArrayStrategy.union k (Value.varr bl) =
                  Value.varr bl := by
                simp only [mergeField, hla]
              rw [hv1] at hlx ⊢
              simp only [mergeField, hlx]
              exact congrArg Value.varr (hkey bl (fun x hx => hx) hbl)
            | some av =>
              by_cases hshape : ∃ al, av = Value.varr al
              · obtain ⟨al, rfl⟩ := hshape
                have hv1 : mergeField afs ArrayStrategy.union k (Value.varr bl) =
                    Value.varr (jsDedup (al ++ bl)) := by
                  simp only [mergeField, hla, mergeArrays]
                rw [hv1] at hlx ⊢
                simp only [mergeField, hlx]
                refine congrArg Value.varr (hkey _ ?_ (nodup_jsDedup _))
                intro x hx
                exact (mem_jsDedup _ _).mpr (List.mem_append_right al hx)
              · have hv1 : mergeField afs ArrayStrategy.union k (Value.varr bl) =
                    Value.varr bl := by
                  cases av with
                  | varr al => exact absurd ⟨al, rfl⟩ hshape
                  | vnull => simp only [mergeField, hla]
                  | vundef => simp only [mergeField, hla]
                  | vbool x => simp only [mergeField, hla]
                  | vnum x => simp only [mergeField, hla]
                  | vstr x => simp only [mergeField, hla]
                  | vobj x => simp only [mergeField, hla]
                rw [hv1] at hlx ⊢
                simp only [mergeField, hlx]
                exact congrArg Value.varr (hkey bl (fun x hx => hx) hbl)
      have hselfhyp : ∀ p ∈ bfs, lookupA bfs p.1 = some (mergeField bfs s p.1 p.2) := by
        intro p hp
        have hl0 : lookupA bfs p.1 = some p.2 := by
          obtain ⟨k, bv⟩ := p
          exact lookupA_of_mem_nodup bfs hnd k bv hp
        have hempty : mergeField ([] : List (String × Value)) s p.1 p.2 = p.2 :=
          mergeField_of_lookupA_none [] s p.1 p.2 rfl
        have hl : lookupA bfs p.1 = some (mergeField [] s p.1 p.2) := by
          rw [hempty]
          exact hl0
        rw [hcore p hp [] bfs hl, hempty]
        exact hl0
      have hgoal_self : deepMerge (Value.vobj bfs) (Value.vobj bfs) s = Value.vobj bfs := by
        simp only [deepMerge]
        congr 1
        exact mergeEntries_id bfs s bfs bfs hselfhyp
      have hhyp : ∀ afs : List (String × Value), ∀ p ∈ bfs,
          lookupA (mergeEntries afs afs bfs s) p.1 =
            some (mergeField (mergeEntries afs afs bfs s) s p.1 p.2) := by
        intro afs p hp
        have hl0 : lookupA bfs p.1 = some p.2 := by
          obtain ⟨k, bv⟩ := p
          exact lookupA_of_mem_nodup bfs hnd k bv hp
        have hl := lookupA_mergeEntries_of_mem afs s bfs hnd p.1 p.2 hl0 afs
        rw [hcore p hp afs _ hl]
        exact hl
      cases a with
      | vobj afs =>
        simp only [deepMerge]
        congr 1
        exact mergeEntries_id (mergeEntries afs afs bfs s) s bfs
          (mergeEntries afs afs bfs s) (hhyp afs)
      | vnull => simpa only [deepMerge] using hgoal_self
      | vundef => simpa only [deepMerge] using hgoal_self
      | vbool x => simpa only [deepMerge] using hgoal_self
      | vnum x => simpa only [deepMerge] using hgoal_self
      | vstr x => simpa only [deepMerge] using hgoal_self
      | varr x => simpa only [deepMerge] using hgoal_self

/-- C5: for every pair of plain mappings `a`, `b` (objects have
pairwise-distinct keys, as every JS object does) and every array
strategy, `deepMerge(a, b, strategy)` is a plain mapping whose key set
is the union of the two key sets; every key present only in `a` keeps
exactly `a`'s value, and every key absent from `a` gets exactly `b`'s
value (in particular keys present only in `b` get `b`'s value). -/
theorem deepMerge_plain_mapping_union (afs bfs : List (String × Value))
    (s : ArrayStrategy) (hb : (bfs.map Prod.fst).Nodup) :
    ∃ cfs, deepMerge (Value.vobj afs) (Value.vobj bfs) s = Value.vobj cfs ∧
      (∀ k, hasKey cfs k = (hasKey afs k || hasKey bfs k)) ∧
      (∀ k, hasKey bfs k = false → lookupA cfs k = lookupA afs k) ∧
      (∀ k, hasKey afs k = false → lookupA cfs k = lookupA bfs k) := by
  refine ⟨mergeEntries afs afs bfs s, by simp [deepMerge], ?_, ?_, ?_⟩
  · intro k
    exact hasKey_mergeEntries afs s k bfs afs
  · intro k h
    exact lookupA_mergeEntries_of_not_hasKey afs s k bfs afs h
  · intro k h
    have hn : lookupA afs k = none := by
      rw [hasKey_eq_isSome] at h
      cases hh : lookupA afs k
      · rfl
      · rw [hh] at h
        simp at h
    cases hb2 : lookupA bfs k with
    | none =>
      have hkb : hasKey bfs k = false := by
        rw [hasKey_eq_isSome, hb2]
        rfl
      rw [lookupA_mergeEntries_of_not_hasKey afs s k bfs afs hkb, hn]
    | some bv =>
      rw [lookupA_mergeEntries_of_mem afs s bfs hb k bv hb2 afs]
      rw [mergeField_of_lookupA_none afs s k bv hn]

theorem deepMerge_plain_mapping_union_witness :
    (([("b", Value.vnum 2), ("c", Value.vnum 3)].map
        (Prod.fst (α := String) (β := Value))).Nodup) ∧
    (∃ cfs,
      deepMerge (Value.vobj [("a", Value.vnum 1), ("c", Value.vnum 0)])
          (Value.vobj [("b", Value.vnum 2), ("c", Value.vnum 3)])
          ArrayStrategy.union = Value.vobj cfs ∧
      (∀ k, hasKey cfs k =
        (hasKey [("a", Value.vnum 1), ("c", Value.vnum 0)] k ||
          hasKey [("b", Value.vnum 2), ("c", Value.vnum 3)] k)) ∧
      (∀ k, hasKey [("b", Value.vnum 2), ("c", Value.vnum 3)] k = false →
        lookupA cfs k = lookupA [("a", Value.vnum 1), ("c", Value.vnum 0)] k) ∧
      (∀ k, hasKey [("a", Value.vnum 1), ("c", Value.vnum 0)] k = false →
        lookupA cfs k = lookupA [("b", Value.vnum 2), ("c", Value.vnum 3)] k)) :=
  ⟨by decide,
    deepMerge_plain_mapping_union [("a", Value.vnum 1), ("c", Value.vnum 0)]
      [("b", Value.vnum 2), ("c", Value.vnum 3)] ArrayStrategy.union (by decide)⟩

/-- C6: at a key where both sides hold arrays, `deepMerge` combines per
the strategy: `replace` keeps only the incoming array; `concat` appends
incoming after base, preserving duplicates and order; `union` is the
first-occurrence de-duplication of base followed by incoming, which for
a duplicate-free base equals the base followed by the incoming elements
not already present; merging `{list:[1,2]}` with `{list:[2,3]}` gives
`[1,2,3]` under union, `[1,2,2,3]` under concat and `[2,3]` under
replace. -/
theorem deepMerge_array_strategies :
    (∀ (afs bfs : List (String × Value)) (k : String) (al bl : List Value)
        (s : ArrayStrategy), (bfs.map Prod.fst).Nodup →
        lookupA afs k = some (Value.varr al) →
        lookupA bfs k = some (Value.varr bl) →
        objLookup (deepMerge (Value.vobj afs) (Value.vobj bfs) s) k =
          some (Value.varr (mergeArrays s al bl))) ∧
    (∀ al bl : List Value, mergeArrays ArrayStrategy.replace al bl = bl) ∧
    (∀ al bl : List Value, mergeArrays ArrayStrategy.concat al bl = al ++ bl) ∧
    (∀ al bl : List Value,
        mergeArrays ArrayStrategy.union al bl = jsDedup (al ++ bl)) ∧
    (∀ al bl : List Value, al.Nodup →
        mergeArrays ArrayStrategy.union al bl =
          al ++ jsDedup (bl.filter (fun x => decide (¬ x ∈ al)))) ∧
    deepMerge (Value.vobj [("list", Value.varr [Value.vnum 1, Value.vnum 2])])
        (Value.vobj [("list", Value.varr [Value.vnum 2, Value.vnum 3])])
        ArrayStrategy.union =
      Value.vobj [("list", Value.varr [Value.vnum 1, Value.vnum 2, Value.vnum 3])] ∧
    deepMerge (Value.vobj [("list", Value.varr [Value.vnum 1, Value.vnum 2])])
        (Value.vobj [("list", Value.varr [Value.vnum 2, Value.vnum 3])])
        ArrayStrategy.concat =
      Value.vobj [("list",
        Value.varr [Value.vnum 1, Value.vnum 2, Value.vnum 2, Value.vnum 3])] ∧
    deepMerge (Value.vobj [("list", Value.varr [Value.vnum 1, Value.vnum 2])])
        (Value.vobj [("list", Value.varr [Value.vnum 2, Value.vnum 3])])
        ArrayStrategy.replace =
      Value.vobj [("list", Value.varr [Value.vnum 2, Value.vnum 3])] := by
  refine ⟨?_, fun al bl => rfl, fun al bl => rfl, fun al bl => rfl, ?_, ?_, ?_, ?_⟩
  · intro afs bfs k al bl s hnd ha hb
    have h := lookupA_mergeEntries_of_mem afs s bfs hnd k (Value.varr bl) hb afs
    simp only [deepMerge, objLookup]
    rw [h]
    simp only [mergeField, ha]
  · intro al bl hnd
    simp only [mergeArrays]
    rw [jsDedup_append_decomp, jsDedup_eq_self al hnd]
  · simp [deepMerge, mergeEntries, mergeField, mergeArrays, setKey, lookupA, jsDedup]
  · simp [deepMerge, mergeEntries, mergeField, mergeArrays, setKey, lookupA, jsDedup]
  · simp [deepMerge, mergeEntries, mergeField, mergeArrays, setKey, lookupA, jsDedup]

theorem deepMerge_array_strategies_witness :
    objLookup (deepMerge (Value.vobj [("x", Value.varr [Value.vnum 1])])
        (Value.vobj [("x", Value.varr [Value.vnum 2])]) ArrayStrategy.concat) "x" =
      some (Value.varr
        (mergeArrays ArrayStrategy.concat [Value.vnum 1] [Value.vnum 2])) :=
  deepMerge_array_strategies.1 [("x", Value.varr [Value.vnum 1])]
    [("x", Value.varr [Value.vnum 2])] "x" [Value.vnum 1] [Value.vnum 2]
    ArrayStrategy.concat (by decide) (by decide) (by decide)

/-- C7 counterexample: with `a = {}` and `b = {x:[1,1]}`, the `union`
strategy is not stable under re-application: `deepMerge(a,b,'union')`
keeps `b`'s duplicate (`{x:[1,1]}`, the both-arrays branch is never
reached), while re-merging `b` dedupes to `{x:[1]}`. -/
theorem deepMerge_union_not_idempotent :
    deepMerge
        (deepMerge (Value.vobj [])
          (Value.vobj [("x", Value.varr [Value.vnum 1, Value.vnum 1])])
          ArrayStrategy.union)
        (Value.vobj [("x", Value.varr [Value.vnum 1, Value.vnum 1])])
        ArrayStrategy.union ≠
      deepMerge (Value.vobj [])
        (Value.vobj [("x", Value.varr [Value.vnum 1, Value.vnum 1])])
        ArrayStrategy.union := by
  simp [deepMerge, mergeEntries, mergeField, mergeArrays, setKey, lookupA, jsDedup]

/-- C7 (amended): `deepMerge(deepMerge(a,b,s),b,s) = deepMerge(a,b,s)`
holds for every pair of values under `s = 'replace'`, and under
`s = 'union'` additionally requires that no array stored at an object
key of `b` contains duplicate elements (`remergeSafe`); without that
condition `union` re-merging can collapse duplicates that the first
merge kept. No stability is claimed for `concat`. -/
theorem deepMerge_idempotent_replace_union (a b : Value) (s : ArrayStrategy)
    (hs : s = ArrayStrategy.replace ∨ s = ArrayStrategy.union)
    (hsafe : remergeSafe s b = true) :
    deepMerge (deepMerge a b s) b s = deepMerge a b s :=
  deepMerge_remerge_aux s hs (sizeOf b + 1) b (by omega) hsafe a

theorem deepMerge_idempotent_replace_union_witness :
    (ArrayStrategy.union = ArrayStrategy.replace ∨
      ArrayStrategy.union = ArrayStrategy.union) ∧
    remergeSafe ArrayStrategy.union
      (Value.vobj [("x", Value.varr [Value.vnum 1, Value.vnum 2])]) = true ∧
    deepMerge
        (deepMerge (Value.vobj [("x", Value.varr [Value.vnum 2, Value.vnum 5])])
          (Value.vobj [("x", Value.varr [Value.vnum 1, Value.vnum 2])])
          ArrayStrategy.union)
        (Value.vobj [("x", Value.varr [Value.vnum 1, Value.vnum 2])])
        ArrayStrategy.union =
      deepMerge (Value.vobj [("x", Value.varr [Value.vnum 2, Value.vnum 5])])
        (Value.vobj [("x", Value.varr [Value.vnum 1, Value.vnum 2])])
        ArrayStrategy.union :=
  ⟨Or.inr rfl, by simp [remergeSafe, remergeSafeFields],
    deepMerge_idempotent_replace_union
      (Value.vobj [("x", Value.varr [Value.vnum 2, Value.vnum 5])])
      (Value.vobj [("x", Value.varr [Value.vnum 1, Value.vnum 2])])
      ArrayStrategy.union (Or.inr rfl)
      (by simp [remergeSafe, remergeSafeFields])⟩

/-- C10: when the store's delete call throws (and the flow reaches it:
a row matched and `pre-delete` did not cancel), both the Pg `runDelete`
body and the SQLite delete return an error Response whose message is
exactly the update-operation message
"An error occurred while updating the data.", not a delete-specific
one. -/
theorem delete_error_uses_update_message (cfg : EventManagerConfig) (hooks : Hooks)
    (fx : StoreFaults) (t : Table) (hfx : fx.deleteOk = false) :
    (∀ (sel : Selector) (row : Row) (rest : List Row),
      selectWhere t sel = row :: rest → hooks.preDelete row = none →
      pgRunDelete cfg hooks fx t sel =
        Except.ok
          (Response.error (some "An error occurred while updating the data."), t)) ∧
    (∀ (pf : String) (pv : Value) (row : Row) (rest : List Row),
      selectWhere t [(pf, pv)] = row :: rest → hooks.preDelete row = none →
      sqliteDelete cfg hooks fx t pf pv =
        (Response.error (some "An error occurred while updating the data."), t)) := by
  constructor
  · intro sel row rest hrow hpre
    simp [pgRunDelete, hrow, hpre, hfx]
  · intro pf pv row rest hrow hpre
    simp [sqliteDelete, hrow, hpre, hfx]

theorem delete_error_uses_update_message_witness :
    sqliteDelete DefaultEventManagerConfig passiveHooks
        { insertOk := true, updateOk := true, deleteOk := false }
        [[("id", Value.vnum 1)]] "id" (Value.vnum 1) =
      (Response.error (some "An error occurred while updating the data."),
        [[("id", Value.vnum 1)]]) :=
  (delete_error_uses_update_message DefaultEventManagerConfig passiveHooks
      { insertOk := true, updateOk := true, deleteOk := false }
      [[("id", Value.vnum 1)]] rfl).2
    "id" (Value.vnum 1) [("id", Value.vnum 1)] []
    (by simp [selectWhere, matchRow, lookupA]) rfl

/-- C9: the SQLite update invokes `deepMerge` without the strategy
argument, so its per-key merge always uses the default `union`
strategy: `sqliteUpdate` is unchanged when the configured
`array_strategy` is overwritten with `union`; concretely, with
`array_strategy = 'concat'` and `merge_objects = true`, updating
`meta:{arr:[2,3]}` over `meta:{arr:[1,2]}` still union-merges to
`arr:[1,2,3]` in the SQLite manager, while the Pg manager with the
identical configuration concat-merges to `arr:[1,2,2,3]`. -/
theorem sqlite_update_merge_ignores_array_strategy :
    (∀ (cfg : EventManagerConfig) (hooks : Hooks) (fx : StoreFaults) (t : Table)
        (pf : String) (pv : Value) (data : Row),
        sqliteUpdate cfg hooks fx t pf pv data =
          sqliteUpdate { cfg with array_strategy := ArrayStrategy.union }
            hooks fx t pf pv data) ∧
    (sqliteUpdate
        { merge_objects := true, array_strategy := ArrayStrategy.concat,
          rollback_on_cancel := false }
        passiveHooks reliableStore
        [[("id", Value.vnum 1),
          ("meta", Value.vobj [("arr", Value.varr [Value.vnum 1, Value.vnum 2])])]]
        "id" (Value.vnum 1)
        [("meta", Value.vobj [("arr", Value.varr [Value.vnum 2, Value.vnum 3])])]).1 =
      Response.success
        [("id", Value.vnum 1),
          ("meta", Value.vobj
            [("arr", Value.varr [Value.vnum 1, Value.vnum 2, Value.vnum 3])])] ∧
    (pgRunUpdate
        { merge_objects := true, array_strategy := ArrayStrategy.concat,
          rollback_on_cancel := false }
        passiveHooks reliableStore
        [[("id", Value.vnum 1),
          ("meta", Value.vobj [("arr", Value.varr [Value.vnum 1, Value.vnum 2])])]]
        [("id", Value.vnum 1)]
        [("meta", Value.vobj [("arr", Value.varr [Value.vnum 2, Value.vnum 3])])]) =
      Except.ok
        (Response.success
          [("id", Value.vnum 1),
            ("meta", Value.vobj
              [("arr", Value.varr
                [Value.vnum 1, Value.vnum 2, Value.vnum 2, Value.vnum 3])])],
          [[("id", Value.vnum 1),
            ("meta", Value.vobj
              [("arr", Value.varr
                [Value.vnum 1, Value.vnum 2, Value.vnum 2, Value.vnum 3])])]]) := by
  refine ⟨fun cfg hooks fx t pf pv data => rfl, ?_, ?_⟩
  · simp [sqliteUpdate, selectWhere, matchRow, lookupA, passiveHooks, mergeUpdateData,
      truthy, deepMerge, mergeEntries, mergeField, mergeArrays, jsDedup, setKey,
      updateWhere, assignRow, reliableStore]
  · simp [pgRunUpdate, selectWhere, matchRow, lookupA, passiveHooks, mergeUpdateData,
      truthy, deepMerge, mergeEntries, mergeField, mergeArrays, jsDedup, setKey,
      updateWhere, assignRow, reliableStore]

theorem mem_dedupNames_sub : ∀ (l : List String) (x : String),
    x ∈ dedupNames l → x ∈ l
  | [], x => by simp [dedupNames]
  | k :: rest, x => by
      rw [dedupNames]
      intro h
      rcases List.mem_cons.mp h with h | h
      · exact h ▸ List.mem_cons_self _ _
      · have := mem_dedupNames_sub _ _ h
        rw [List.mem_filter] at this
        exact List.mem_cons_of_mem _ this.1
termination_by l _ => l.length
decreasing_by
  simp only [List.length_cons]
  exact Nat.lt_succ_of_le (List.length_filter_le _ _)

theorem dedupNames_nodup : ∀ l : List String, (dedupNames l).Nodup
  | [] => by simp [dedupNames]
  | k :: rest => by
      rw [dedupNames]
      refine List.nodup_cons.mpr ⟨?_, dedupNames_nodup _⟩
      intro hmem
      have hf := mem_dedupNames_sub _ _ hmem
      simp [List.mem_filter] at hf
termination_by l => l.length
decreasing_by
  simp only [List.length_cons]
  exact Nat.lt_succ_of_le (List.length_filter_le _ _)

theorem resolve_fold_eq_dedup (cols : List (String × Nat)) :
    ∀ (pcs : List Nat) (acc : List String),
      List.foldl (fun keys pc =>
        match cols.find? (fun c => c.2 == pc) with
        | none => keys
        | some c => if c.1 ∈ keys then keys else keys ++ [c.1]) acc pcs
      = acc ++ dedupNames
          ((pcs.filterMap
              (fun pc => (cols.find? (fun c => c.2 == pc)).map Prod.fst)).filter
            (fun x => decide (¬ x ∈ acc))) := by
  intro pcs
  induction pcs with
  | nil => intro acc; simp [dedupNames]
  | cons pc rest ih =>
    intro acc
    rw [List.foldl_cons, List.filterMap_cons]
    cases hf : cols.find? (fun c => c.2 == pc) with
    | none =>
      simp only [hf]
      exact ih acc
    | some c =>
      simp only [hf, Option.map_some']
      by_cases hc : c.1 ∈ acc
      · have hp : (decide (¬ c.1 ∈ acc)) = false := by simp [hc]
        rw [if_pos hc, List.filter_cons]
        simp only [hp, Bool.false_eq_true, if_false]
        exact ih acc
      · have hp : (decide (¬ c.1 ∈ acc)) = true := by simp [hc]
        rw [if_neg hc, List.filter_cons]
        simp only [hp, if_true]
        rw [dedupNames, ih (acc ++ [c.1]), List.append_assoc, List.singleton_append]
        congr 2
        rw [List.filter_filter]
        congr 1
        apply List.filter_congr
        intro x _
        by_cases hx : x = c.1
        · subst hx
          simp
        · simp [hx, List.mem_append]

theorem resolveDeclaredKeys_fold (tbl : TableSchema) :
    List.foldl (fun keys pc =>
      match tbl.columns.find? (fun c => c.2 == pc) with
      | none => keys
      | some c => if c.1 ∈ keys then keys else keys ++ [c.1]) []
      tbl.primaryKeys.flatten
    = dedupNames (resolvedNames tbl) := by
  rw [resolve_fold_eq_dedup tbl.columns tbl.primaryKeys.flatten [], List.nil_append,
    resolvedNames]
  congr 1
  apply List.filter_eq_self.mpr
  intro a _
  simp

/-- C8 counterexample: an explicitly supplied empty-string primary
field is not trusted as-is: `if (primary_field)` is a JS truthiness
test, so the empty string falls through to schema introspection, which
here resolves the declared key "id" instead of returning [""]. -/
theorem resolve_explicit_empty_field_not_trusted :
    resolvePrimaryKeys { primaryKeys := [[0]], columns := [("id", 0)] }
        (some "") ≠ Except.ok [""] ∧
    resolvePrimaryKeys { primaryKeys := [[0]], columns := [("id", 0)] }
        (some "") = Except.ok ["id"] := by
  constructor
  · decide
  · decide

/-- C8 (amended): primary-key resolution without an explicit field
behaves as specified: no declared primary key yields the error
"No primary key is defined for this table." (surfaced by update with
" Pass a primary_field explicitly." appended); declared but
unresolvable columns yield
"Unable to resolve primary key columns for this table."; a composite
key resolves to all participating columns, de-duplicated, in declared
order. An explicit *non-empty* field is trusted as-is as the single
key; the empty string (falsy in JS) instead falls through to schema
introspection. -/
theorem resolve_primary_keys_spec :
    (∀ (tbl : TableSchema) (f : String), ¬ f = "" →
        resolvePrimaryKeys tbl (some f) = Except.ok [f]) ∧
    (∀ tbl : TableSchema,
        resolvePrimaryKeys tbl (some "") = resolveDeclaredKeys tbl) ∧
    (∀ tbl : TableSchema, tbl.primaryKeys.flatten = [] →
        resolvePrimaryKeys tbl none =
          Except.error "No primary key is defined for this table.") ∧
    (∀ tbl : TableSchema, ¬ tbl.primaryKeys.flatten = [] →
        resolvedNames tbl = [] →
        resolvePrimaryKeys tbl none =
          Except.error "Unable to resolve primary key columns for this table.") ∧
    (∀ tbl : TableSchema, ¬ resolvedNames tbl = [] →
        resolvePrimaryKeys tbl none =
          Except.ok (dedupNames (resolvedNames tbl)) ∧
        (dedupNames (resolvedNames tbl)).Nodup) ∧
    (∀ (cfg : EventManagerConfig) (hooks : Hooks) (fx : StoreFaults)
        (tbl : TableSchema) (t : Table) (pv : Value) (data : Row),
        tbl.primaryKeys.flatten = [] →
        pgUpdate cfg hooks fx tbl t none pv data =
          (Response.error (some
            "No primary key is defined for this table. Pass a primary_field explicitly."),
            t)) ∧
    resolvePrimaryKeys
        { primaryKeys := [[1, 2, 1]],
          columns := [("user_id", 1), ("org_id", 2), ("role", 3)] } none =
      Except.ok ["user_id", "org_id"] := by
  have hflat_ne : ∀ tbl : TableSchema, ¬ resolvedNames tbl = [] →
      ¬ tbl.primaryKeys.flatten = [] := by
    intro tbl h hflat
    apply h
    rw [resolvedNames, hflat]
    rfl
  refine ⟨?_, ?_, ?_, ?_, ?_, ?_, ?_⟩
  · intro tbl f hf
    simp [resolvePrimaryKeys, hf]
  · intro tbl
    simp [resolvePrimaryKeys]
  · intro tbl h
    simp [resolvePrimaryKeys, resolveDeclaredKeys, h]
  · intro tbl h1 h2
    have hempty : dedupNames (resolvedNames tbl) = [] := by
      rw [h2]
      simp [dedupNames]
    simp [resolvePrimaryKeys, resolveDeclaredKeys, h1, resolveDeclaredKeys_fold, hempty]
  · intro tbl h
    have h1 := hflat_ne tbl h
    have hded : ¬ dedupNames (resolvedNames tbl) = [] := by
      intro hd
      apply h
      cases hn : resolvedNames tbl with
      | nil => rfl
      | cons x xs =>
        rw [hn, dedupNames] at hd
        cases hd
    refine ⟨?_, dedupNames_nodup _⟩
    simp [resolvePrimaryKeys, resolveDeclaredKeys, h1, resolveDeclaredKeys_fold, hded]
  · intro cfg hooks fx tbl t pv data h
    simp [pgUpdate, resolvePrimaryKeys, resolveDeclaredKeys, h]
  · decide

theorem resolve_primary_keys_spec_witness :
    resolvePrimaryKeys { primaryKeys := [], columns := [("id", 0)] } (some "id") =
      Except.ok ["id"] ∧
    resolvePrimaryKeys { primaryKeys := [], columns := [("id", 0)] } none =
      Except.error "No primary key is defined for this table." :=
  ⟨resolve_primary_keys_spec.1 { primaryKeys := [], columns := [("id", 0)] } "id"
      (by decide),
    resolve_primary_keys_spec.2.2.1 { primaryKeys := [], columns := [("id", 0)] } rfl⟩

theorem map_eq_self_of_fixed {α : Type} (f : α → α) :
    ∀ l : List α, (∀ x ∈ l, f x = x) → l.map f = l := by
  intro l
  induction l with
  | nil => intro _; rfl
  | cons x xs ih =>
    intro h
    rw [List.map_cons, h x (List.mem_cons_self _ _),
      ih (fun y hy => h y (List.mem_cons_of_mem _ hy))]

theorem assignRow_nil (r : Row) : assignRow r [] = r := rfl

theorem assignRow_cons (r : Row) (k : String) (v : Value) (rest : Row) :
    assignRow r ((k, v) :: rest) = assignRow (setKey r k v) rest := rfl

theorem assignRow_cons_ne (k : String) (w : Value) :
    ∀ (q r : List (String × Value)), (∀ p ∈ q, ¬ p.1 = k) →
      assignRow ((k, w) :: r) q = (k, w) :: assignRow r q := by
  intro q
  induction q with
  | nil => intro r _; rfl
  | cons p q' ih =>
    intro r h
    obtain ⟨l, u⟩ := p
    have hl : ¬ l = k := h (l, u) (List.mem_cons_self _ _)
    rw [assignRow_cons, assignRow_cons]
    rw [setKey, if_neg (fun hh => hl (Eq.symm hh))]
    exact ih (setKey r l u) (fun p hp => h p (List.mem_cons_of_mem _ hp))

theorem assignRow_self_keys : ∀ (q r : List (String × Value)),
    r.map Prod.fst = q.map Prod.fst → (q.map Prod.fst).Nodup →
    assignRow r q = q := by
  intro q
  induction q with
  | nil =>
    intro r hmap _
    cases r with
    | nil => rfl
    | cons p r' => cases hmap
  | cons p q' ih =>
    intro r hmap hnd
    obtain ⟨k, w⟩ := p
    cases r with
    | nil => cases hmap
    | cons p2 r' =>
      obtain ⟨k2, v⟩ := p2
      rw [List.map_cons, List.map_cons] at hmap
      injection hmap with hk hmap'
      subst hk
      rw [List.map_cons, List.nodup_cons] at hnd
      rw [assignRow_cons]
      rw [setKey, if_pos rfl]
      have hq' : ∀ p ∈ q', ¬ p.1 = k2 := by
        intro p hp hpk
        exact hnd.1 (hpk ▸ List.mem_map.mpr ⟨p, hp, rfl⟩)
      rw [assignRow_cons_ne k2 w q' r' hq', ih r' hmap' hnd.2]

theorem setKey_keys_of_hasKey (k : String) (v : Value) :
    ∀ row : Row, hasKey row k = true →
      (setKey row k v).map Prod.fst = row.map Prod.fst := by
  intro row
  induction row with
  | nil => intro h; cases h
  | cons p rest ih =>
    intro h
    obtain ⟨l, w⟩ := p
    by_cases hl : l = k
    · subst hl
      rw [setKey, if_pos rfl, List.map_cons, List.map_cons]
    · rw [hasKey] at h
      have h2 : hasKey rest k = true := by
        have hne : (l == k) = false := beq_eq_false_iff_ne.mpr hl
        rw [hne] at h
        simpa using h
      rw [setKey, if_neg hl, List.map_cons, List.map_cons, ih h2]

theorem assignRow_keys_sub : ∀ (data row : Row),
    (∀ p ∈ data, hasKey row p.1 = true) →
    (assignRow row data).map Prod.fst = row.map Prod.fst := by
  intro data
  induction data with
  | nil => intro row _; rfl
  | cons p rest ih =>
    intro row h
    obtain ⟨k, v⟩ := p
    have hk : hasKey row k = true := h (k, v) (List.mem_cons_self _ _)
    rw [assignRow_cons]
    rw [ih (setKey row k v) ?_]
    · exact setKey_keys_of_hasKey k v row hk
    · intro p hp
      rw [hasKey_setKey]
      rw [h p (List.mem_cons_of_mem _ hp)]
      simp

theorem assignRow_lookupA_of_not_hasKey : ∀ (data row : Row) (k : String),
    hasKey data k = false → lookupA (assignRow row data) k = lookupA row k := by
  intro data
  induction data with
  | nil => intro row k _; rfl
  | cons p rest ih =>
    intro row k h
    obtain ⟨l, u⟩ := p
    rw [hasKey] at h
    have hl : ¬ l = k := by
      intro hh
      subst hh
      simp at h
    have h2 : hasKey rest k = false := by
      have hne : (l == k) = false := beq_eq_false_iff_ne.mpr hl
      rw [hne] at h
      simpa using h
    have hq : ¬ k = l := fun hh => hl hh.symm
    rw [assignRow_cons, ih (setKey row l u) k h2, lookupA_setKey_ne _ _ _ _ hq]

theorem mergeUpdateData_hasKey (strategy : ArrayStrategy) (m : Bool) (l : String) :
    ∀ (old d : Row), hasKey (mergeUpdateData strategy m old d) l = hasKey d l := by
  intro old d
  cases m with
  | false => rfl
  | true =>
    rw [mergeUpdateData]
    simp only [if_true]
    induction old generalizing d with
    | nil => rfl
    | cons c rest ih =>
      rw [List.foldl_cons]
      cases hl : lookupA d c.1 with
      | none =>
        simp only [hl]
        exact ih d
      | some dv =>
        by_cases ht : truthy dv
        · simp only [hl, ht, if_true]
          rw [ih (setKey d c.1 (deepMerge c.2 dv strategy))]
          rw [hasKey_setKey]
          by_cases hlc : l = c.1
          · subst hlc
            rw [hasKey_eq_isSome, hl]
            simp
          · have hne : (l == c.1) = false := beq_eq_false_iff_ne.mpr hlc
            rw [hne]
            simp
        · simp only [hl, ht, if_false]
          exact ih d

theorem pgRunUpdate_post_cancel (cfg : EventManagerConfig) (hooks : Hooks)
    (fx : StoreFaults) (t : Table) (sel : Selector) (data : Row)
    (reason : Option String) (old_row : Row) (rest : List Row)
    (hrb : cfg.rollback_on_cancel = true) (hfx : fx.updateOk = true)
    (hrow : selectWhere t sel = old_row :: rest)
    (hpre : (hooks.preUpdate data old_row).2 = none)
    (hpost : ∀ r o, hooks.postUpdate r o = some reason) :
    pgRunUpdate cfg hooks fx t sel data = Except.error reason := by
  rcases hpe : hooks.preUpdate data old_row with ⟨d1, c⟩
  rw [hpe] at hpre
  simp only at hpre
  subst hpre
  simp only [pgRunUpdate, hrow, hpe, hfx, updateWhere, List.map_cons, hpost, hrb,
    if_true]

theorem sqliteUpdate_post_cancel_restores (cfg : EventManagerConfig) (hooks : Hooks)
    (fx : StoreFaults) (t : Table) (pf : String) (pv : Value) (data : Row)
    (reason : Option String) (old_row : Row)
    (hrb : cfg.rollback_on_cancel = true) (hfx : fx.updateOk = true)
    (hrow : selectWhere t [(pf, pv)] = [old_row])
    (hnd : (old_row.map Prod.fst).Nodup)
    (hpre : hooks.preUpdate data old_row = (data, none))
    (hpost : ∀ r o, hooks.postUpdate r o = some reason)
    (hkeys : ∀ k, hasKey data k = true → hasKey old_row k = true)
    (hpf : hasKey data pf = false) :
    sqliteUpdate cfg hooks fx t pf pv data = (Response.error reason, t) := by
  have hmem : old_row ∈ selectWhere t [(pf, pv)] := by
    rw [hrow]
    exact List.mem_cons_self _ _
  have hmatch_old : matchRow old_row [(pf, pv)] = true := by
    rw [selectWhere] at hmem
    exact (List.mem_filter.mp hmem).2
  have hpv : lookupA old_row pf = some pv := by
    rw [matchRow] at hmatch_old
    simpa using hmatch_old
  have hd2 : ∀ k,
      hasKey (mergeUpdateData ArrayStrategy.union cfg.merge_objects old_row data) k
        = hasKey data k :=
    fun k => mergeUpdateData_hasKey ArrayStrategy.union cfg.merge_objects k old_row data
  have hd2sub : ∀ p ∈ mergeUpdateData ArrayStrategy.union cfg.merge_objects old_row data,
      hasKey old_row p.1 = true := by
    intro p hp
    apply hkeys
    rw [← hd2 p.1]
    rw [hasKey_iff_exists]
    exact ⟨p.2, hp⟩
  have hkeep : lookupA
      (assignRow old_row (mergeUpdateData ArrayStrategy.union cfg.merge_objects old_row data))
      pf = some pv := by
    rw [assignRow_lookupA_of_not_hasKey _ _ _ ((hd2 pf).trans hpf), hpv]
  have hmatch2 : matchRow
      (assignRow old_row (mergeUpdateData ArrayStrategy.union cfg.merge_objects old_row data))
      [(pf, pv)] = true := by
    rw [matchRow]
    simp [hkeep]
  have hrestore : assignRow
      (assignRow old_row (mergeUpdateData ArrayStrategy.union cfg.merge_objects old_row data))
      old_row = old_row := by
    apply assignRow_self_keys old_row _ _ hnd
    exact assignRow_keys_sub _ old_row hd2sub
  have hfix : ∀ r ∈ t,
      (fun row => if matchRow row [(pf, pv)] then assignRow row old_row else row)
        ((fun row => if matchRow row [(pf, pv)] then
            assignRow row (mergeUpdateData ArrayStrategy.union cfg.merge_objects old_row data)
          else row) r) = r := by
    intro r hr
    by_cases hm : matchRow r [(pf, pv)] = true
    · have hre : r = old_row := by
        have hin : r ∈ selectWhere t [(pf, pv)] := List.mem_filter.mpr ⟨hr, hm⟩
        rw [hrow] at hin
        simpa using hin
      subst hre
      simp only [hm, if_true, hmatch2, hrestore]
    · have hm' : matchRow r [(pf, pv)] = false := by
        cases hmm : matchRow r [(pf, pv)]
        · rfl
        · exact absurd hmm hm
      simp only [hm', Bool.false_eq_true, if_false]
  simp only [sqliteUpdate, hrow, hpre, hfx, updateWhere, List.map_cons, hpost, hrb,
    if_true]
  rw [List.map_map]
  rw [map_eq_self_of_fixed _ t ?_]
  intro r hr
  exact hfix r hr

/-- C2 counterexample: in the SQLite manager, when the update itself
changes the primary-field value, the compensating
`update set(old_row) where pf = pv` matches nothing (the row now
carries the new key value), so post-update cancellation under
`rollback_on_cancel = true` does NOT restore the pre-update snapshot:
updating `{id:1, name:"A"}` with `{id:2}` under a cancelling
post-update hook leaves `{id:2, name:"A"}` persisted. -/
theorem sqlite_update_rollback_misses_key_change :
    sqliteUpdate DefaultEventManagerConfig
        { passiveHooks with postUpdate := fun _ _ => some (some "undo") }
        reliableStore [[("id", Value.vnum 1), ("name", Value.vstr "A")]]
        "id" (Value.vnum 1) [("id", Value.vnum 2)] =
      (Response.error (some "undo"),
        [[("id", Value.vnum 2), ("name", Value.vstr "A")]]) ∧
    ([[("id", Value.vnum 2), ("name", Value.vstr "A")]] : Table) ≠
      [[("id", Value.vnum 1), ("name", Value.vstr "A")]] := by
  constructor
  · simp [sqliteUpdate, DefaultEventManagerConfig, passiveHooks, reliableStore,
      selectWhere, matchRow, lookupA, mergeUpdateData, truthy, deepMerge, setKey,
      updateWhere, assignRow]
  · decide

/-- C2 (amended): post-update cancellation with
`rollback_on_cancel = true` returns an error with the cancel reason
and restores the pre-update state. For the Pg manager the transaction
abort restores the whole table unconditionally. For the SQLite manager
the compensating `set(old_row)` restores the table provided the update
data stays within the row's columns and does not touch the
primary-field value (otherwise the compensating update misses the row,
see the counterexample); the row's columns are pairwise distinct and
the selector targets exactly the one row. -/
theorem update_post_cancel_rollback_restores :
    (∀ (cfg : EventManagerConfig) (hooks : Hooks) (fx : StoreFaults)
        (tbl : TableSchema) (t : Table) (pf : String) (pv : Value) (sel : Selector)
        (data : Row) (reason : Option String) (old_row : Row) (rest : List Row),
        cfg.rollback_on_cancel = true → fx.updateOk = true → ¬ pf = "" →
        buildWhereFromPrimaryValue [pf] pv = Except.ok sel →
        selectWhere t sel = old_row :: rest →
        (hooks.preUpdate data old_row).2 = none →
        (∀ r o, hooks.postUpdate r o = some reason) →
        pgUpdate cfg hooks fx tbl t (some pf) pv data = (Response.error reason, t)) ∧
    (∀ (cfg : EventManagerConfig) (hooks : Hooks) (fx : StoreFaults) (t : Table)
        (pf : String) (pv : Value) (data : Row) (reason : Option String)
        (old_row : Row),
        cfg.rollback_on_cancel = true → fx.updateOk = true →
        selectWhere t [(pf, pv)] = [old_row] →
        (old_row.map Prod.fst).Nodup →
        hooks.preUpdate data old_row = (data, none) →
        (∀ r o, hooks.postUpdate r o = some reason) →
        (∀ k, hasKey data k = true → hasKey old_row k = true) →
        hasKey data pf = false →
        sqliteUpdate cfg hooks fx t pf pv data = (Response.error reason, t)) := by
  constructor
  · intro cfg hooks fx tbl t pf pv sel data reason old_row rest hrb hfx hpf hbw hrow
      hpre hpost
    have hrun := pgRunUpdate_post_cancel cfg hooks fx t sel data reason old_row rest
      hrb hfx hrow hpre hpost
    simp [pgUpdate, resolvePrimaryKeys, hpf, hbw, hrun]
  · intro cfg hooks fx t pf pv data reason old_row hrb hfx hrow hnd hpre hpost hkeys
      hpf
    exact sqliteUpdate_post_cancel_restores cfg hooks fx t pf pv data reason old_row
      hrb hfx hrow hnd hpre hpost hkeys hpf

theorem update_post_cancel_rollback_restores_witness :
    sqliteUpdate DefaultEventManagerConfig
        { passiveHooks with postUpdate := fun _ _ => some (some "undo") }
        reliableStore [[("id", Value.vnum 1), ("name", Value.vstr "A")]]
        "id" (Value.vnum 1) [("name", Value.vstr "B")] =
      (Response.error (some "undo"),
        [[("id", Value.vnum 1), ("name", Value.vstr "A")]]) :=
  update_post_cancel_rollback_restores.2 DefaultEventManagerConfig
    { passiveHooks with postUpdate := fun _ _ => some (some "undo") }
    reliableStore [[("id", Value.vnum 1), ("name", Value.vstr "A")]]
    "id" (Value.vnum 1) [("name", Value.vstr "B")] (some "undo")
    [("id", Value.vnum 1), ("name", Value.vstr "A")]
    rfl rfl (by simp [selectWhere, matchRow, lookupA]) (by decide)
    rfl (fun r o => rfl)
    (by
      intro k hk
      simp [hasKey] at hk
      subst hk
      decide)
    (by decide)

theorem mem_deleteWhere (t : Table) (sel : Selector) (x : Row) :
    x ∈ deleteWhere t sel ↔ x ∈ t ∧ matchRow x sel = false := by
  rw [deleteWhere, List.mem_filter]
  constructor
  · intro ⟨h1, h2⟩
    refine ⟨h1, ?_⟩
    cases hm : matchRow x sel
    · rfl
    · rw [hm] at h2
      cases h2
  · intro ⟨h1, h2⟩
    refine ⟨h1, ?_⟩
    rw [h2]
    rfl

theorem mem_d1CompensateDeletes_sub (keys : List String) :
    ∀ (rows : List Row) (t : Table) (x : Row),
      x ∈ d1CompensateDeletes keys t rows → x ∈ t := by
  intro rows
  induction rows with
  | nil => intro t x h; exact h
  | cons r rest ih =>
    intro t x h
    rw [d1CompensateDeletes] at h
    have := ih _ x h
    exact ((mem_deleteWhere _ _ _).mp this).1

theorem not_mem_d1CompensateDeletes (keys : List String) :
    ∀ (rows : List Row) (t : Table) (r : Row), r ∈ rows →
      matchRow r (buildWhereFromKeys keys r) = true →
      r ∉ d1CompensateDeletes keys t rows := by
  intro rows
  induction rows with
  | nil => intro t r h; cases h
  | cons r0 rest ih =>
    intro t r hmem hself hfin
    rcases List.mem_cons.mp hmem with h | h
    · subst h
      rw [d1CompensateDeletes] at hfin
      have hin := mem_d1CompensateDeletes_sub keys rest _ r hfin
      have := ((mem_deleteWhere _ _ _).mp hin).2
      rw [hself] at this
      cases this
    · rw [d1CompensateDeletes] at hfin
      exact ih _ r h hself hfin

theorem matchRow_buildWhereFromKeys_self (keys : List String) (r : Row)
    (h : ∀ k ∈ keys, hasKey r k = true) :
    matchRow r (buildWhereFromKeys keys r) = true := by
  rw [matchRow, buildWhereFromKeys, List.all_eq_true]
  intro c hc
  rw [List.mem_map] at hc
  obtain ⟨k, hk, hceq⟩ := hc
  subst hceq
  have hkk := h k hk
  rw [hasKey_eq_isSome] at hkk
  cases hl : lookupA r k with
  | none =>
    rw [hl] at hkk
    cases hkk
  | some v =>
    simp [jsIndex, hl]

/-- C3: for a batch insert with `rollback_on_cancel = true` whose
pre-insert phase passes and whose post-insert phase cancels on some row
(the first cancelling row supplying the reason), the batch returns an
error with that reason and zero rows of the batch remain persisted: the
Pg `insert_batch` aborts its transaction, restoring the initial table
exactly, and the D1 `insertBatch` issues compensating deletes of every
result row of the bulk call (each row carrying its key columns), so no
inserted row remains, not just the cancelling one. -/
theorem insert_batch_post_cancel_rolls_back_all :
    (∀ (cfg : EventManagerConfig) (hooks : Hooks) (fx : StoreFaults) (t : Table)
        (data data1 : List Row) (reason : Option String),
        cfg.rollback_on_cancel = true → fx.insertOk = true →
        preInsertPhase hooks data = Except.ok data1 →
        postInsertPhase hooks data1 = some reason →
        pgInsertBatch cfg hooks fx t data = (Response.error reason, t)) ∧
    (∀ (cfg : EventManagerConfig) (hooks : Hooks) (fx : StoreFaults)
        (tbl : TableSchema) (t : Table) (pf : Option String) (keys : List String)
        (data data1 : List Row) (reason : Option String),
        cfg.rollback_on_cancel = true → fx.insertOk = true →
        resolvePrimaryKeys tbl pf = Except.ok keys →
        preInsertPhase hooks data = Except.ok data1 →
        postInsertPhase hooks data1 = some reason →
        (∀ r ∈ data1, ∀ k ∈ keys, hasKey r k = true) →
        ∃ tfin, d1InsertBatch cfg hooks fx tbl t pf data =
            (Response.error reason, tfin) ∧
          ∀ r ∈ data1, r ∉ tfin) := by
  constructor
  · intro cfg hooks fx t data data1 reason hrb hfx hpre hpost
    have hne : data1.isEmpty = false := by
      cases data1
      · rw [postInsertPhase] at hpost
        cases hpost
      · rfl
    simp only [pgInsertBatch, hrb, if_true, pgRunInsertBatch, hpre, hfx, insertRows,
      hne, hpost, Bool.false_eq_true, if_false]
  · intro cfg hooks fx tbl t pf keys data data1 reason hrb hfx hres hpre hpost hkeys
    have hne : data1.isEmpty = false := by
      cases data1
      · rw [postInsertPhase] at hpost
        cases hpost
      · rfl
    refine ⟨d1CompensateDeletes keys (t ++ data1) data1, ?_, ?_⟩
    · simp only [d1InsertBatch, hres, d1InsertBatchBody, hpre, hfx, insertRows, hne,
        hpost, hrb, if_true, Bool.false_eq_true, if_false]
    · intro r hr
      exact not_mem_d1CompensateDeletes keys data1 _ r hr
        (matchRow_buildWhereFromKeys_self keys r (fun k hk => hkeys r hr k hk))

theorem insert_batch_post_cancel_rolls_back_all_witness :
    pgInsertBatch DefaultEventManagerConfig
        { passiveHooks with postInsert := fun r =>
            (if lookupA r "id" = some (Value.vnum 2) then some (some "stop-2")
              else none) }
        reliableStore []
        [[("id", Value.vnum 1)], [("id", Value.vnum 2)], [("id", Value.vnum 3)]] =
      (Response.error (some "stop-2"), []) :=
  insert_batch_post_cancel_rolls_back_all.1 DefaultEventManagerConfig
    { passiveHooks with postInsert := fun r =>
        (if lookupA r "id" = some (Value.vnum 2) then some (some "stop-2")
          else none) }
    reliableStore []
    [[("id", Value.vnum 1)], [("id", Value.vnum 2)], [("id", Value.vnum 3)]]
    [[("id", Value.vnum 1)], [("id", Value.vnum 2)], [("id", Value.vnum 3)]]
    (some "stop-2") rfl rfl rfl (by decide)

theorem pgRunUpdate_pre_cancel (cfg : EventManagerConfig) (hooks : Hooks)
    (fx : StoreFaults) (t : Table) (sel : Selector) (data : Row)
    (reason : Option String) (old_row : Row) (rest : List Row)
    (hrow : selectWhere t sel = old_row :: rest)
    (hpre : (hooks.preUpdate data old_row).2 = some reason) :
    pgRunUpdate cfg hooks fx t sel data = Except.ok (Response.error reason, t) := by
  rcases hpe : hooks.preUpdate data old_row with ⟨d1, c⟩
  rw [hpe] at hpre
  simp only at hpre
  subst hpre
  simp only [pgRunUpdate, hrow, hpe]

theorem pgRunDelete_pre_cancel (cfg : EventManagerConfig) (hooks : Hooks)
    (fx : StoreFaults) (t : Table) (sel : Selector)
    (reason : Option String) (row : Row) (rest : List Row)
    (hrow : selectWhere t sel = row :: rest)
    (hpre : hooks.preDelete row = some reason) :
    pgRunDelete cfg hooks fx t sel = Except.ok (Response.error reason, t) := by
  simp only [pgRunDelete, hrow, hpre]

theorem pgRunUpdateBatch_tx_ok (cfg : EventManagerConfig) (hooks : Hooks)
    (fx : StoreFaults) (keys : List String) :
    ∀ (us : List (Value × Row)) (t : Table) (acc : List Row)
      (r : Response (List Row) × Table),
      pgRunUpdateBatch cfg hooks fx keys true t us acc = Except.ok r →
      ∃ rows t2, r = (Response.success rows, t2) := by
  intro us
  induction us with
  | nil =>
    intro t acc r h
    rw [pgRunUpdateBatch] at h
    injection h with h
    exact ⟨acc, t, h.symm⟩
  | cons u rest ih =>
    intro t acc r h
    obtain ⟨pv, data⟩ := u
    rw [pgRunUpdateBatch] at h
    rcases hbw : buildWhereFromPrimaryValue keys pv with e | sel
    · rw [hbw] at h
      simp at h
    · rw [hbw] at h
      try dsimp only at h
      rcases hsw : selectWhere t sel with _ | ⟨old_row, tail⟩
      · rw [hsw] at h
        simp at h
      · rw [hsw] at h
        try dsimp only at h
        rcases hpe : hooks.preUpdate data old_row with ⟨d1, c⟩
        rw [hpe] at h
        try dsimp only at h
        cases c with
        | some reason => simp at h
        | none =>
          try dsimp only at h
          cases hfu : fx.updateOk with
          | false =>
            rw [hfu] at h
            simp at h
          | true =>
            rw [hfu] at h
            simp only [updateWhere, hsw, List.map_cons, if_true] at h
            try dsimp only at h
            rcases hpo : hooks.postUpdate
                (assignRow old_row
                  (mergeUpdateData cfg.array_strategy cfg.merge_objects old_row d1))
                old_row with _ | reason
            · rw [hpo] at h
              try dsimp only at h
              exact ih _ _ _ h
            · rw [hpo] at h
              simp at h

theorem pgRunDeleteBatch_tx_ok (cfg : EventManagerConfig) (hooks : Hooks)
    (fx : StoreFaults) (keys : List String) :
    ∀ (pvs : List Value) (t : Table) (acc : List Row)
      (r : Response (List Row) × Table),
      pgRunDeleteBatch cfg hooks fx keys true t pvs acc = Except.ok r →
      ∃ rows t2, r = (Response.success rows, t2) := by
  intro pvs
  induction pvs with
  | nil =>
    intro t acc r h
    rw [pgRunDeleteBatch] at h
    injection h with h
    exact ⟨acc, t, h.symm⟩
  | cons pv rest ih =>
    intro t acc r h
    rw [pgRunDeleteBatch] at h
    rcases hbw : buildWhereFromPrimaryValue keys pv with e | sel
    · rw [hbw] at h
      simp at h
    · rw [hbw] at h
      try dsimp only at h
      rcases hsw : selectWhere t sel with _ | ⟨row, tail⟩
      · rw [hsw] at h
        simp at h
      · rw [hsw] at h
        try dsimp only at h
        rcases hpd : hooks.preDelete row with _ | reason
        · rw [hpd] at h
          try dsimp only at h
          cases hfu : fx.deleteOk with
          | false =>
            rw [hfu] at h
            simp at h
          | true =>
            rw [hfu] at h
            simp only [if_true] at h
            try dsimp only at h
            rcases hpo : hooks.postDelete row with _ | reason
            · rw [hpo] at h
              try dsimp only at h
              exact ih _ _ _ h
            · rw [hpo] at h
              simp at h
        · rw [hpd] at h
          simp at h

/-- C1 counterexample: in `update_batch` with `rollback_on_cancel =
false`, a pre-update cancellation on the second item returns the cancel
reason but leaves the first item's write persisted: the store state is
not what it was before the call. -/
theorem pre_cancel_batch_leaves_earlier_writes :
    pgUpdateBatch
        { merge_objects := false, array_strategy := ArrayStrategy.union,
          rollback_on_cancel := false }
        { passiveHooks with preUpdate := fun d o =>
            (d, (if lookupA o "id" = some (Value.vnum 2) then some (some "stop")
              else none)) }
        reliableStore { primaryKeys := [[0]], columns := [("id", 0)] }
        [[("id", Value.vnum 1), ("v", Value.vnum 10)],
          [("id", Value.vnum 2), ("v", Value.vnum 20)]]
        (some "id")
        [(Value.vnum 1, [("v", Value.vnum 11)]),
          (Value.vnum 2, [("v", Value.vnum 21)])] =
      (Response.error (some "stop"),
        [[("id", Value.vnum 1), ("v", Value.vnum 11)],
          [("id", Value.vnum 2), ("v", Value.vnum 20)]]) ∧
    ([[("id", Value.vnum 1), ("v", Value.vnum 11)],
      [("id", Value.vnum 2), ("v", Value.vnum 20)]] : Table) ≠
      [[("id", Value.vnum 1), ("v", Value.vnum 10)],
        [("id", Value.vnum 2), ("v", Value.vnum 20)]] := by
  constructor
  · simp [pgUpdateBatch, resolvePrimaryKeys, resolveDeclaredKeys, pgRunUpdateBatch,
      buildWhereFromPrimaryValue, selectWhere, matchRow, lookupA, passiveHooks,
      mergeUpdateData, updateWhere, assignRow, setKey, reliableStore]
  · decide

/-- C1 (amended): a cancelling pre-hook always makes the operation
return an error carrying the hook-supplied reason. The store is left
exactly as before the call for single-row insert, update and delete in
both managers, for `insert_batch`/`insertBatch` (whose pre phase runs
entirely before the bulk store call), and for a first-item cancellation
in `update_batch`/`delete_batch`; for those two batch operations with
`rollback_on_cancel = true`, every error outcome (including a pre-hook
cancellation on a later item) leaves the store unchanged via the
transaction abort, but with `rollback_on_cancel = false` the writes of
items processed before the cancelling one persist. -/
theorem pre_cancel_error_and_no_write :
    (∀ (cfg : EventManagerConfig) (hooks : Hooks) (fx : StoreFaults) (t : Table)
        (data : Row) (reason : Option String),
        (hooks.preInsert data).2 = some reason →
        pgInsert cfg hooks fx t data = (Response.error reason, t)) ∧
    (∀ (cfg : EventManagerConfig) (hooks : Hooks) (fx : StoreFaults)
        (tbl : TableSchema) (t : Table) (pf : String) (pv : Value) (sel : Selector)
        (data : Row) (reason : Option String) (old_row : Row) (rest : List Row),
        ¬ pf = "" → buildWhereFromPrimaryValue [pf] pv = Except.ok sel →
        selectWhere t sel = old_row :: rest →
        (hooks.preUpdate data old_row).2 = some reason →
        pgUpdate cfg hooks fx tbl t (some pf) pv data = (Response.error reason, t)) ∧
    (∀ (cfg : EventManagerConfig) (hooks : Hooks) (fx : StoreFaults)
        (tbl : TableSchema) (t : Table) (pf : String) (pv : Value) (sel : Selector)
        (reason : Option String) (row : Row) (rest : List Row),
        ¬ pf = "" → buildWhereFromPrimaryValue [pf] pv = Except.ok sel →
        selectWhere t sel = row :: rest →
        hooks.preDelete row = some reason →
        pgDelete cfg hooks fx tbl t (some pf) pv = (Response.error reason, t)) ∧
    (∀ (cfg : EventManagerConfig) (hooks : Hooks) (fx : StoreFaults) (t : Table)
        (data : List Row) (reason : Option String),
        preInsertPhase hooks data = Except.error reason →
        pgInsertBatch cfg hooks fx t data = (Response.error reason, t)) ∧
    (∀ (cfg : EventManagerConfig) (hooks : Hooks) (fx : StoreFaults)
        (tbl : TableSchema) (t : Table) (pf : Option String) (keys : List String)
        (pv1 : Value) (sel1 : Selector) (data1 : Row) (more : List (Value × Row))
        (reason : Option String) (old_row : Row) (rest : List Row),
        resolvePrimaryKeys tbl pf = Except.ok keys →
        buildWhereFromPrimaryValue keys pv1 = Except.ok sel1 →
        selectWhere t sel1 = old_row :: rest →
        (hooks.preUpdate data1 old_row).2 = some reason →
        pgUpdateBatch cfg hooks fx tbl t pf ((pv1, data1) :: more) =
          (Response.error reason, t)) ∧
    (∀ (cfg : EventManagerConfig) (hooks : Hooks) (fx : StoreFaults)
        (tbl : TableSchema) (t : Table) (pf : Option String) (keys : List String)
        (pv1 : Value) (sel1 : Selector) (more : List Value)
        (reason : Option String) (row : Row) (rest : List Row),
        resolvePrimaryKeys tbl pf = Except.ok keys →
        buildWhereFromPrimaryValue keys pv1 = Except.ok sel1 →
        selectWhere t sel1 = row :: rest →
        hooks.preDelete row = some reason →
        pgDeleteBatch cfg hooks fx tbl t pf (pv1 :: more) =
          (Response.error reason, t)) ∧
    (∀ (cfg : EventManagerConfig) (hooks : Hooks) (fx : StoreFaults)
        (tbl : TableSchema) (t : Table) (pf : Option String)
        (updates : List (Value × Row)),
        cfg.rollback_on_cancel = true →
        (∃ rows t2, pgUpdateBatch cfg hooks fx tbl t pf updates =
            (Response.success rows, t2)) ∨
        (∃ m, pgUpdateBatch cfg hooks fx tbl t pf updates =
            (Response.error m, t))) ∧
    (∀ (cfg : EventManagerConfig) (hooks : Hooks) (fx : StoreFaults)
        (tbl : TableSchema) (t : Table) (pf : Option String) (pvs : List Value),
        cfg.rollback_on_cancel = true →
        (∃ rows t2, pgDeleteBatch cfg hooks fx tbl t pf pvs =
            (Response.success rows, t2)) ∨
        (∃ m, pgDeleteBatch cfg hooks fx tbl t pf pvs =
            (Response.error m, t))) ∧
    (∀ (cfg : EventManagerConfig) (hooks : Hooks) (fx : StoreFaults) (t : Table)
        (pf : String) (data : Row) (reason : Option String),
        (hooks.preInsert data).2 = some reason →
        sqliteInsert cfg hooks fx t pf data = (Response.error reason, t)) ∧
    (∀ (cfg : EventManagerConfig) (hooks : Hooks) (fx : StoreFaults) (t : Table)
        (pf : String) (pv : Value) (data : Row) (reason : Option String)
        (old_row : Row) (rest : List Row),
        selectWhere t [(pf, pv)] = old_row :: rest →
        (hooks.preUpdate data old_row).2 = some reason →
        sqliteUpdate cfg hooks fx t pf pv data = (Response.error reason, t)) ∧
    (∀ (cfg : EventManagerConfig) (hooks : Hooks) (fx : StoreFaults) (t : Table)
        (pf : String) (pv : Value) (reason : Option String) (row : Row)
        (rest : List Row),
        selectWhere t [(pf, pv)] = row :: rest →
        hooks.preDelete row = some reason →
        sqliteDelete cfg hooks fx t pf pv = (Response.error reason, t)) ∧
    (∀ (cfg : EventManagerConfig) (hooks : Hooks) (fx : StoreFaults)
        (tbl : TableSchema) (t : Table) (pf : Option String) (keys : List String)
        (data : List Row) (reason : Option String),
        resolvePrimaryKeys tbl pf = Except.ok keys →
        preInsertPhase hooks data = Except.error reason →
        d1InsertBatch cfg hooks fx tbl t pf data = (Response.error reason, t)) := by
  refine ⟨?_, ?_, ?_, ?_, ?_, ?_, ?_, ?_, ?_, ?_, ?_, ?_⟩
  · intro cfg hooks fx t data reason hpre
    rcases hpe : hooks.preInsert data with ⟨d1, c⟩
    rw [hpe] at hpre
    simp only at hpre
    subst hpre
    simp [pgInsert, pgRunInsert, hpe]
  · intro cfg hooks fx tbl t pf pv sel data reason old_row rest hpf hbw hrow hpre
    have hrun := pgRunUpdate_pre_cancel cfg hooks fx t sel data reason old_row rest
      hrow hpre
    simp [pgUpdate, resolvePrimaryKeys, hpf, hbw, hrun]
  · intro cfg hooks fx tbl t pf pv sel reason row rest hpf hbw hrow hpre
    have hrun := pgRunDelete_pre_cancel cfg hooks fx t sel reason row rest hrow hpre
    simp [pgDelete, resolvePrimaryKeys, hpf, hbw, hrun]
  · intro cfg hooks fx t data reason hpre
    cases hrb : cfg.rollback_on_cancel <;>
      simp [pgInsertBatch, hrb, pgRunInsertBatch, hpre]
  · intro cfg hooks fx tbl t pf keys pv1 sel1 data1 more reason old_row rest hres hbw
      hrow hpre
    rcases hpe : hooks.preUpdate data1 old_row with ⟨d1, c⟩
    rw [hpe] at hpre
    simp only at hpre
    subst hpre
    cases hrb : cfg.rollback_on_cancel <;>
      simp [pgUpdateBatch, hres, hrb, pgRunUpdateBatch, hbw, hrow, hpe]
  · intro cfg hooks fx tbl t pf keys pv1 sel1 more reason row rest hres hbw hrow hpre
    cases hrb : cfg.rollback_on_cancel <;>
      simp [pgDeleteBatch, hres, hrb, pgRunDeleteBatch, hbw, hrow, hpre]
  · intro cfg hooks fx tbl t pf updates hrb
    cases hres : resolvePrimaryKeys tbl pf with
    | error e =>
      right
      exact ⟨some (e ++ " Pass a primary_field explicitly."),
        by simp [pgUpdateBatch, hres]⟩
    | ok keys =>
      rcases hrun : pgRunUpdateBatch cfg hooks fx keys true t updates [] with m | r
      · right
        exact ⟨m, by simp [pgUpdateBatch, hres, hrb, hrun]⟩
      · obtain ⟨rows, t2, hr⟩ :=
          pgRunUpdateBatch_tx_ok cfg hooks fx keys updates t [] r hrun
        left
        exact ⟨rows, t2, by simp [pgUpdateBatch, hres, hrb, hrun, hr]⟩
  · intro cfg hooks fx tbl t pf pvs hrb
    cases hres : resolvePrimaryKeys tbl pf with
    | error e =>
      right
      exact ⟨some (e ++ " Pass a primary_field explicitly."),
        by simp [pgDeleteBatch, hres]⟩
    | ok keys =>
      rcases hrun : pgRunDeleteBatch cfg hooks fx keys true t pvs [] with m | r
      · right
        exact ⟨m, by simp [pgDeleteBatch, hres, hrb, hrun]⟩
      · obtain ⟨rows, t2, hr⟩ :=
          pgRunDeleteBatch_tx_ok cfg hooks fx keys pvs t [] r hrun
        left
        exact ⟨rows, t2, by simp [pgDeleteBatch, hres, hrb, hrun, hr]⟩
  · intro cfg hooks fx t pf data reason hpre
    rcases hpe : hooks.preInsert data with ⟨d1, c⟩
    rw [hpe] at hpre
    simp only at hpre
    subst hpre
    simp [sqliteInsert, hpe]
  · intro cfg hooks fx t pf pv data reason old_row rest hrow hpre
    rcases hpe : hooks.preUpdate data old_row with ⟨d1, c⟩
    rw [hpe] at hpre
    simp only at hpre
    subst hpre
    simp [sqliteUpdate, hrow, hpe]
  · intro cfg hooks fx t pf pv reason row rest hrow hpre
    simp [sqliteDelete, hrow, hpre]
  · intro cfg hooks fx tbl t pf keys data reason hres hpre
    simp [d1InsertBatch, hres, d1InsertBatchBody, hpre]

theorem pre_cancel_error_and_no_write_witness :
    pgInsert DefaultEventManagerConfig
        { passiveHooks with preInsert := fun d => (d, some (some "stop")) }
        reliableStore [] [("id", Value.vnum 1)] =
      (Response.error (some "stop"), []) :=
  pre_cancel_error_and_no_write.1 DefaultEventManagerConfig
    { passiveHooks with preInsert := fun d => (d, some (some "stop")) }
    reliableStore [] [("id", Value.vnum 1)] (some "stop") rfl

theorem regLE_total (a b : Registration) :
    regLE a b = true ∨ regLE b a = true := by
  simp only [regLE, Bool.or_eq_true, Bool.and_eq_true, decide_eq_true_eq]
  omega

theorem regLE_trans {a b c : Registration} (h1 : regLE a b = true)
    (h2 : regLE b c = true) : regLE a c = true := by
  simp only [regLE, Bool.or_eq_true, Bool.and_eq_true, decide_eq_true_eq] at *
  omega

theorem insertReg_perm (a : Registration) (l : List Registration) :
    List.Perm (insertReg a l) (a :: l) := by
  induction l with
  | nil => simp [insertReg]
  | cons b rest ih =>
    cases h : regLE a b with
    | true => simp [insertReg, h]
    | false =>
      simp only [insertReg, h, Bool.false_eq_true, if_false]
      exact (List.Perm.cons b ih).trans (List.Perm.swap a b rest)

theorem mem_insertReg {x a : Registration} {l : List Registration} :
    x ∈ insertReg a l ↔ x = a ∨ x ∈ l := by
  rw [(insertReg_perm a l).mem_iff, List.mem_cons]

theorem pairwise_insertReg (a : Registration) (l : List Registration)
    (h : List.Pairwise (fun x y => regLE x y = true) l) :
    List.Pairwise (fun x y => regLE x y = true) (insertReg a l) := by
  induction l with
  | nil => simp [insertReg]
  | cons b rest ih =>
    rcases List.pairwise_cons.mp h with ⟨hb, hrest⟩
    cases hab : regLE a b with
    | true =>
      simp only [insertReg, hab, if_true]
      refine List.pairwise_cons.mpr ⟨?_, List.pairwise_cons.mpr ⟨hb, hrest⟩⟩
      intro x hx
      rcases List.mem_cons.mp hx with hx | hx
      · exact hx ▸ hab
      · exact regLE_trans hab (hb x hx)
    | false =>
      simp only [insertReg, hab, Bool.false_eq_true, if_false]
      refine List.pairwise_cons.mpr ⟨?_, ih hrest⟩
      intro x hx
      rcases mem_insertReg.mp hx with hx | hx
      · subst hx
        rcases regLE_total x b with hh | hh
        · exact absurd hh (by simp [hab])
        · exact hh
      · exact hb x hx

theorem sortRegs_perm (l : List Registration) :
    List.Perm (sortRegs l) l := by
  induction l with
  | nil => simp [sortRegs]
  | cons a rest ih =>
    exact (insertReg_perm a (sortRegs rest)).trans (List.Perm.cons a ih)

theorem sortRegs_pairwise (l : List Registration) :
    List.Pairwise (fun x y => regLE x y = true) (sortRegs l) := by
  induction l with
  | nil => simp [sortRegs]
  | cons a rest ih => exact pairwise_insertReg a (sortRegs rest) ih

/-- C4: for a routing key's registry, emission invokes the handlers in
dispatch order: the emitted sequence is a permutation of the registered
handlers sorted so that every earlier record relates to every later one
by `regLE` (ascending numeric priority, and ascending registration
sequence among equal priorities). In particular, with any two handlers
registered at HIGH and LOW via `registerHandler`, emission runs the
HIGH handler first regardless of which was registered first. -/
theorem handlers_run_in_priority_order :
    (∀ regs : List Registration,
        List.Pairwise (fun a b => regLE a b = true) (sortRegs regs) ∧
        List.Perm (sortRegs regs) regs ∧
        emitOrder regs = (sortRegs regs).map Registration.handler) ∧
    (∀ h1 h2 : Nat,
        emitOrder (registerHandler (registerHandler [] EventPriority.high h1)
            EventPriority.low h2) = [h1, h2] ∧
        emitOrder (registerHandler (registerHandler [] EventPriority.low h2)
            EventPriority.high h1) = [h1, h2]) := by
  constructor
  · intro regs
    exact ⟨sortRegs_pairwise regs, sortRegs_perm regs, rfl⟩
  · intro h1 h2
    constructor
    · simp [registerHandler, emitOrder, sortRegs, insertReg, regLE,
        EventPriority.toNat]
    · simp [registerHandler, emitOrder, sortRegs, insertReg, regLE,
        EventPriority.toNat]
